import Mathlib

/-!
# steamlancache: the request handler of `src/steamlancache/main.go`

A shallow embedding of the single HTTP handler of the LAN cache and of the
Go library functions it calls, followed by the properties of the handler.

Go strings are modelled as lists of characters (`Str`), one element per
byte of the Go string.  All patterns the program uses are ASCII, so the
byte-wise Go functions and their element-wise models agree.

The origin is a function from URLs to responses; `http.Get` follows its
redirects as the client of net/http does.  `WriteHeader` is partial as in
net/http: it panics on a code outside 100..999, and the handler stops there.
-/

namespace Steamlancache

/-- Go `string`: a sequence of bytes, one list element per byte. -/
abbrev Str := List Char

/-! ## package strings -/

namespace strings

/-- Scanning loop of `strings.Replace(s, old, new, -1)` for a non-empty
`old`: the first argument counts the bytes of a match that are still to be
skipped.  With nothing to skip, a match of `old` at the current position
emits `new` and skips the matched bytes; otherwise the current byte is
copied. -/
def replaceFrom (old new : Str) : Nat → Str → Str
  | _, [] => []
  | 0, c :: t =>
    if old.isPrefixOf (c :: t) then new ++ replaceFrom old new (old.length - 1) t
    else c :: replaceFrom old new 0 t
  | k + 1, _ :: t => replaceFrom old new k t

/-- Go `strings.ReplaceAll(s, old, new)`: every non-overlapping occurrence of
`old`, found from left to right, is replaced by `new`.  For an empty `old`
Go inserts `new` before every code point and at the end, which is before
every element for ASCII text; the program passes no empty `old`. -/
def ReplaceAll (s old new : Str) : Str :=
  if old = [] then new ++ s.flatMap (fun c => c :: new) else replaceFrom old new 0 s

/-- Go `strings.Contains(s, substr)`. -/
def Contains : Str → Str → Bool
  | [], substr => substr.isEmpty
  | c :: t, substr => substr.isPrefixOf (c :: t) || Contains t substr

/-- Scanning loop of `strings.Count` for a non-empty `substr`; the first
argument counts the bytes of a match still to be skipped. -/
def countFrom (substr : Str) : Nat → Str → Nat
  | _, [] => 0
  | 0, c :: t =>
    if substr.isPrefixOf (c :: t) then 1 + countFrom substr (substr.length - 1) t
    else countFrom substr 0 t
  | k + 1, _ :: t => countFrom substr k t

/-- Go `strings.Count(s, substr)`: the number of non-overlapping occurrences
of `substr` in `s`.  For an empty `substr` Go returns the number of code
points plus one, which is the length plus one for ASCII text. -/
def Count (s substr : Str) : Nat :=
  if substr = [] then s.length + 1 else countFrom substr 0 s

/-- Go `strings.Join(elems, sep)`. -/
def Join : List Str → Str → Str
  | [], _ => []
  | [e], _ => e
  | e :: e2 :: es, sep => e ++ sep ++ Join (e2 :: es) sep

end strings

/-! ## The regular expression `\/5(\/\d+)?$` -/

namespace manifestTrailingFive

/-- The class `\d` of Go regular expressions: the ASCII digits. -/
def isDigit (c : Char) : Bool := decide ('0' ≤ c) && decide (c ≤ '9')

/-- Whether `\/5(\/\d+)?$` matches at the start of the given text: the text
is `/5`, or `/5/` followed by one or more digits, and nothing else (the `$`
is the end of the text). -/
def matchesHere : Str → Bool
  | ['/', '5'] => true
  | '/' :: '5' :: '/' :: d :: ds => (d :: ds).all isDigit
  | _ => false

/-- Go `manifestTrailingFive.ReplaceAllString(src, repl)` for a literal
`repl`.  A match ends at the end of the text, so the leftmost match is the
only one: the text from the first position where the expression matches is
replaced by `repl`. -/
def ReplaceAllString : Str → Str → Str
  | [], _ => []
  | c :: t, repl =>
    if matchesHere (c :: t) then repl else c :: ReplaceAllString t repl

end manifestTrailingFive

/-! ## package path/filepath (Unix) -/

namespace filepath

/-- Inner loop of the `..` case of `Clean`, on the output buffer held in
reverse (last byte first): after `out.w--` has dropped `last`, keep dropping
while `out.w > dotdot` and the byte at index `out.w` (the one just dropped)
is not a separator. -/
def backtrack (dotdot : Nat) : Str → Char → Str
  | [], _ => []
  | c :: out, last =>
    if dotdot < (c :: out).length ∧ last ≠ '/' then backtrack dotdot out c
    else c :: out

/-- The copy loop of the default case of `Clean`: append the bytes of the
path up to the next separator to the (reversed) output buffer and return the
rest of the path with the buffer. -/
def copyElem : Str → Str → Str × Str
  | [], out => ([], out)
  | c :: t, out => if c = '/' then (c :: t, out) else copyElem t (c :: out)

/-- Main loop `for r < n` of `Clean`.  Arguments: whether the path is
rooted, a bound on the number of iterations, the part of the path from index
`r` on, the output buffer in reverse, and `dotdot`.  Every iteration consumes
at least one byte, so `n` iterations always suffice. -/
def cleanLoop (rooted : Bool) : Nat → Str → Str → Nat → Str
  | 0, _, out, _ => out
  | _ + 1, [], out, _ => out
  | fuel + 1, c :: t, out, dotdot =>
    if c = '/' then
      -- empty path element
      cleanLoop rooted fuel t out dotdot
    else if c = '.' ∧ (t = [] ∨ t.head? = some '/') then
      -- . element
      cleanLoop rooted fuel t out dotdot
    else if c = '.' ∧ t.head? = some '.' ∧ (t.tail = [] ∨ t.tail.head? = some '/') then
      -- .. element: remove to last separator
      if dotdot < out.length then
        match out with
        | [] => cleanLoop rooted fuel t.tail out dotdot
        | last :: out1 => cleanLoop rooted fuel t.tail (backtrack dotdot out1 last) dotdot
      else if !rooted then
        let out1 := if 0 < out.length then '/' :: out else out
        let out2 := '.' :: '.' :: out1
        cleanLoop rooted fuel t.tail out2 out2.length
      else
        cleanLoop rooted fuel t.tail out dotdot
    else
      -- real path element: add slash if needed, copy element
      let out1 :=
        if (rooted && out.length != 1) || (!rooted && out.length != 0) then '/' :: out
        else out
      let next := copyElem (c :: t) out1
      cleanLoop rooted fuel next.1 next.2 dotdot

/-- Go `filepath.Clean(path)` on Unix (no volume names). -/
def Clean (path : Str) : Str :=
  if path = [] then ['.']
  else
    let rooted := path.head? = some '/'
    let out :=
      if rooted then cleanLoop true path.length path.tail ['/'] 1
      else cleanLoop false path.length path [] 0
    if out.length = 0 then ['.'] else out.reverse

/-- Go `filepath.Join(elem...)` on Unix: the elements from the first
non-empty one on are joined with `/` and the result is cleaned. -/
def Join : List Str → Str
  | [] => []
  | e :: es => if e ≠ [] then Clean (strings.Join (e :: es) ['/']) else Join es

/-- The scan of `filepath.Dir` for the last separator, on the reversed path:
drops the bytes after the last separator. -/
def dropLastElem : Str → Str
  | [] => []
  | c :: t => if c = '/' then c :: t else dropLastElem t

/-- Go `filepath.Dir(path)` on Unix: the path up to and including its last
separator, cleaned. -/
def Dir (path : Str) : Str := Clean (dropLastElem path.reverse).reverse

end filepath

/-! ## The environment of the handler -/

/-- What a path of the file system holds. -/
inductive Node where
  | file (content : Str)
  | dir
deriving DecidableEq, Repr

/-- File system: the node at each path, if any. -/
abbrev FS := Str → Option Node

/-- The `Location` header of a response, as the client of net/http reads it
after a redirect status. -/
inductive LocationHeader where
  /-- The response has no `Location` header. -/
  | absent
  /-- The header does not parse as a URL reference. -/
  | unparsable
  /-- The URL the header resolves to against the URL of the request. -/
  | target (url : Str)
deriving DecidableEq, Repr

/-- The fields of `*http.Response` that the client and the handler read. -/
structure Response where
  /-- `resp.StatusCode` -/
  StatusCode : Nat
  /-- `resp.Header.Get("Location")` -/
  Location : LocationHeader
  /-- The bytes `resp.Body` yields. -/
  Body : Str
deriving DecidableEq, Repr

/-- Everything outside the handler that its result depends on. -/
structure World where
  /-- Result of `os.Getwd()`; `none` when it returns an error. -/
  cwd : Option Str
  /-- The files and directories on disk. -/
  fs : FS
  /-- The answer of the origin to one GET of the URL, as the transport hands
  it to the client; `none` when the exchange fails (unreachable host,
  malformed URL or response). -/
  origin : Str → Option Response
  /-- Whether `os.MkdirAll` fails for a reason other than a file in the way. -/
  mkdirFails : Bool
  /-- Whether `os.Create` fails for a reason other than a directory in the way. -/
  createFails : Bool

/-- The operations the handler performs on its environment, in order. -/
inductive Event where
  | getwd
  | openFile (name : Str)
  | httpGet (url : Str)
  | mkdirAll (path : Str)
  | create (name : Str)
  | write (name : Str) (data : Str)
deriving DecidableEq, Repr

/-- Whether an event is an outbound request to the origin. -/
def Event.isOrigin : Event → Bool
  | .httpGet _ => true
  | _ => false

/-- Whether an event creates or changes something on disk. -/
def Event.isMutation : Event → Bool
  | .mkdirAll _ => true
  | .create _ => true
  | .write _ _ => true
  | _ => false

namespace os

/-- Go `os.Open(name)`: succeeds when something exists at the path.  The
result is the bytes a read of the opened file yields; reading a directory
yields none. -/
def Open (fs : FS) (name : Str) : Option Str :=
  match fs name with
  | some (Node.file content) => some content
  | some Node.dir => some []
  | none => none

/-- Whether `a` is the directory `d` itself or one of its parents: a
non-empty prefix of `d` that ends where `d` ends or where a separator
follows. -/
def isAncestorOrSelf (a d : Str) : Bool :=
  !a.isEmpty && a.isPrefixOf d && ((d.drop a.length).isEmpty || (d.drop a.length).head? == some '/')

/-- Whether a regular file is at the path. -/
def isFile (fs : FS) (name : Str) : Bool :=
  match fs name with
  | some (Node.file _) => true
  | _ => false

/-- Go `os.MkdirAll(path, perm)`: fails when a regular file is at the path
or at one of its parents (or for an outside reason); otherwise the path and
its parents are directories afterwards. -/
def MkdirAll (w : World) (fs : FS) (path : Str) : Option FS :=
  if w.mkdirFails || path.inits.any (fun a => isAncestorOrSelf a path && isFile fs a) then none
  else some (fun p => if isAncestorOrSelf p path ∧ fs p = none then some Node.dir else fs p)

/-- Go `os.Create(name)`: fails when a directory is at the path (or for an
outside reason); otherwise an empty file is at the path afterwards. -/
def Create (w : World) (fs : FS) (name : Str) : Option FS :=
  if w.createFails || fs name == some Node.dir then none
  else some (fun p => if p = name then some (Node.file []) else fs p)

/-- Writing `data` at the end of the file at `name`. -/
def writeFile (fs : FS) (name : Str) (data : Str) : FS :=
  fun p =>
    if p = name then
      match fs name with
      | some (Node.file content) => some (Node.file (content ++ data))
      | other => other
    else fs p

end os

/-! ## net/http -/

namespace http

/-- `redirectBehavior` of net/http for a GET request without body: the status
codes after which the client goes on to the `Location` of the response. -/
def shouldRedirect (statusCode : Nat) : Bool :=
  statusCode == 301 || statusCode == 302 || statusCode == 303 || statusCode == 307 ||
    statusCode == 308

/-- The loop of `Client.do` with the default redirect policy.  The first
argument is the number of requests that may still be sent: the default
`CheckRedirect` stops with an error once 10 requests have been sent.  A
redirect response without `Location` is returned as it is; an unparsable
`Location` is an error. -/
def clientDo (origin : Str → Option Response) : Nat → Str → Option Response
  | 0, _ => none
  | n + 1, url =>
    match origin url with
    | none => none
    | some resp =>
      if shouldRedirect resp.StatusCode then
        match resp.Location with
        | LocationHeader.absent => some resp
        | LocationHeader.unparsable => none
        | LocationHeader.target next => clientDo origin n next
      else some resp

/-- Go `http.Get(url)`: the response at the end of the redirects the client
follows; `none` when it returns an error. -/
def Get (w : World) (url : Str) : Option Response := clientDo w.origin 10 url

end http

/-- An incoming request: the fields of `*http.Request` the handler reads. -/
structure Request where
  /-- `r.Host` -/
  Host : Str
  /-- `r.URL.Path` -/
  Path : Str

/-- State of the `http.ResponseWriter`: the status code once the header has
been written, the interim (1xx) status lines sent before it, and the body
bytes written so far. -/
structure ResponseWriter where
  status : Option Nat
  interim : List Nat
  body : Str
deriving DecidableEq, Repr

namespace ResponseWriter

/-- `bodyAllowedForStatus` of net/http. -/
def bodyAllowedForStatus (status : Nat) : Bool :=
  !((decide (100 ≤ status) && decide (status ≤ 199)) || status == 204 || status == 304)

/-- `rw.WriteHeader(code)`.  A call after the header has been written has no
effect.  Otherwise a code below 100 or above 999 makes the call panic
(`none`); a 1xx code other than 101 sends an interim status line and leaves
the header unwritten; any other code becomes the status of the response. -/
def WriteHeader (rw : ResponseWriter) (code : Nat) : Option ResponseWriter :=
  match rw.status with
  | some _ => some rw
  | none =>
    if code < 100 ∨ 999 < code then none
    else if code ≤ 199 ∧ code ≠ 101 then some { rw with interim := rw.interim ++ [code] }
    else some { rw with status := some code }

/-- `rw.Write(data)`: writes the header with status 200 if none was written,
then appends the data to the body if the status allows a body. -/
def Write (rw : ResponseWriter) (data : Str) : ResponseWriter :=
  if bodyAllowedForStatus (rw.status.getD 200) then
    { rw with status := some (rw.status.getD 200), body := rw.body ++ data }
  else { rw with status := some (rw.status.getD 200) }

/-- The status code of the response: 200 when the handler returns without
having written a header. -/
def code (rw : ResponseWriter) : Nat := rw.status.getD 200

end ResponseWriter

/-- `io.Copy(rw, src)` where `src` yields `data`: the data is written to the
response; nothing is written for an empty source.  Sources and destinations
are byte strings here, so a copy transfers all of `data`; the handler discards
the count and the error `io.Copy` returns. -/
def ioCopy (rw : ResponseWriter) (data : Str) : ResponseWriter :=
  if data = [] then rw else rw.Write data

/-! ## The handler -/

/-- Lines 38-47 of the handler: the rewrite of `r.URL.Path` into `urlPath`. -/
def rewrite (path : Str) : Str :=
  let urlPath := path
  let urlPath := strings.ReplaceAll urlPath "/depot".toList "/depots".toList
  let urlPath := strings.ReplaceAll urlPath "/chunk".toList []
  if strings.Contains urlPath "manifest".toList then
    let urlPath := strings.ReplaceAll urlPath "/manifest".toList []
    let urlPath := manifestTrailingFive.ReplaceAllString urlPath []
    urlPath ++ ".zip".toList
  else urlPath

/-- Line 48: `cachePath := cwd + filepath.Join("/", urlPath)`. -/
def cachePath (cwd path : Str) : Str :=
  cwd ++ filepath.Join [['/'], rewrite path]

/-- What a run of the handler leaves behind: the response, the file system,
the operations performed, and whether the handler panicked.  After a panic
the server closes the connection and the client receives no response. -/
structure Outcome where
  rw : ResponseWriter
  fs : FS
  trace : List Event
  panicked : Bool

/-- What the client receives: nothing after a panic, otherwise the status
code and the body of the response. -/
def Outcome.received (o : Outcome) : Option (Nat × Str) :=
  if o.panicked then none else some (o.rw.code, o.rw.body)

/-- The anonymous handler function of `main`, lines 23-84.  The event
`httpGet` stands for the call of `http.Get`, which sends one request and one
more for every redirect it follows. -/
def handler (w : World) (r : Request) : Outcome :=
  let rw : ResponseWriter := { status := none, interim := [], body := [] }
  if r.Host = [] ∨ r.Host = "127.0.0.1".toList then
    match rw.WriteHeader 400 with
    | none => { rw := rw, fs := w.fs, trace := [], panicked := true }
    | some rw =>
      { rw := rw.Write "Missing host header.\n".toList, fs := w.fs, trace := [],
        panicked := false }
  else if r.Path = "/favicon.ico".toList then
    match rw.WriteHeader 404 with
    | none => { rw := rw, fs := w.fs, trace := [], panicked := true }
    | some rw => { rw := rw, fs := w.fs, trace := [], panicked := false }
  else
    match w.cwd with
    | none =>
      match rw.WriteHeader 500 with
      | none => { rw := rw, fs := w.fs, trace := [Event.getwd], panicked := true }
      | some rw => { rw := rw, fs := w.fs, trace := [Event.getwd], panicked := false }
    | some cwd =>
      let cachePath := cachePath cwd r.Path
      match os.Open w.fs cachePath with
      | some content =>
        { rw := ioCopy rw content, fs := w.fs,
          trace := [Event.getwd, Event.openFile cachePath], panicked := false }
      | none =>
        let url := "http://".toList ++ r.Host ++ r.Path
        let tr := [Event.getwd, Event.openFile cachePath, Event.httpGet url]
        match http.Get w url with
        | none =>
          match rw.WriteHeader 500 with
          | none => { rw := rw, fs := w.fs, trace := tr, panicked := true }
          | some rw => { rw := rw, fs := w.fs, trace := tr, panicked := false }
        | some resp =>
          match rw.WriteHeader resp.StatusCode with
          | none => { rw := rw, fs := w.fs, trace := tr, panicked := true }
          | some rw =>
            if resp.StatusCode ≠ 200 then
              { rw := rw, fs := w.fs, trace := tr, panicked := false }
            else
              let dir := filepath.Dir cachePath
              match os.MkdirAll w w.fs dir with
              | none =>
                { rw := ioCopy rw resp.Body, fs := w.fs, trace := tr ++ [Event.mkdirAll dir],
                  panicked := false }
              | some fs1 =>
                match os.Create w fs1 cachePath with
                | none =>
                  { rw := ioCopy rw resp.Body, fs := fs1,
                    trace := tr ++ [Event.mkdirAll dir, Event.create cachePath],
                    panicked := false }
                | some fs2 =>
                  -- io.Copy(rw, io.TeeReader(resp.Body, file)): every byte read from the
                  -- body is written to the file and to the response
                  { rw := ioCopy rw resp.Body, fs := os.writeFile fs2 cachePath resp.Body,
                    trace := tr ++ [Event.mkdirAll dir, Event.create cachePath,
                      Event.write cachePath resp.Body],
                    panicked := false }

/-- A world with an empty disk below `/srv` and an origin that answers every
request with status 200 and the body `abc`. -/
def exampleWorld : World :=
  { cwd := some "/srv".toList, fs := fun _ => none,
    origin := fun _ =>
      some { StatusCode := 200, Location := LocationHeader.absent, Body := "abc".toList },
    mkdirFails := false, createFails := false }

/-- A world whose origin answers every request with status 404. -/
def notFoundWorld : World :=
  { cwd := some "/srv".toList, fs := fun _ => none,
    origin := fun _ =>
      some { StatusCode := 404, Location := LocationHeader.absent, Body := "gone".toList },
    mkdirFails := false, createFails := false }

/-- A world with one cached chunk on disk and an unreachable origin. -/
def cachedWorld : World :=
  { cwd := some "/srv".toList,
    fs := fun p => if p = "/srv/depots/1/ab".toList then some (Node.file "xyz".toList) else none,
    origin := fun _ => none, mkdirFails := false, createFails := false }

/-- A world whose origin answers the chunk request with a redirect to a
mirror, and the mirror with status 200 and the body `abc`. -/
def redirectWorld : World :=
  { cwd := some "/srv".toList, fs := fun _ => none,
    origin := fun url =>
      if url = "http://cdn.example/depot/1/chunk/ab".toList then
        some { StatusCode := 302,
               Location := LocationHeader.target "http://mirror.example/ab".toList,
               Body := [] }
      else if url = "http://mirror.example/ab".toList then
        some { StatusCode := 200, Location := LocationHeader.absent, Body := "abc".toList }
      else none,
    mkdirFails := false, createFails := false }

/-- A world whose origin answers every request with the status code 99. -/
def lowStatusWorld : World :=
  { cwd := some "/srv".toList, fs := fun _ => none,
    origin := fun _ =>
      some { StatusCode := 99, Location := LocationHeader.absent, Body := [] },
    mkdirFails := false, createFails := false }

/-- A request for a chunk of depot 1. -/
def chunkRequest : Request :=
  { Host := "cdn.example".toList, Path := "/depot/1/chunk/ab".toList }

/-- The disk of `exampleWorld` after the directories for the chunk of
`chunkRequest` have been made. -/
def exampleDirs : FS :=
  fun p =>
    if os.isAncestorOrSelf p "/srv/depots/1".toList ∧ exampleWorld.fs p = none then some Node.dir
    else exampleWorld.fs p

/-- The disk of `exampleDirs` after the cache file of `chunkRequest` has been
created. -/
def exampleCreated : FS :=
  fun p => if p = "/srv/depots/1/ab".toList then some (Node.file []) else exampleDirs p

/-! ## Vocabulary of the properties -/

/-- The `/`-separated components of a path. -/
def components : Str → List Str
  | [] => [[]]
  | c :: t =>
    if c = '/' then [] :: components t
    else
      match components t with
      | [] => [[c]]
      | first :: others => (c :: first) :: others

/-- The number of positions of `s` at which `sub` occurs (occurrences may
overlap). -/
def occurrences : Str → Str → Nat
  | [], sub => if sub.isEmpty then 1 else 0
  | c :: t, sub => (if sub.isPrefixOf (c :: t) then 1 else 0) + occurrences t sub

/-- Whether the text that follows an occurrence ends the path segment: it is
empty or starts with the separator. -/
def endsSegment (r : Str) : Bool := r.isEmpty || r.head? == some '/'

/-- Whether every occurrence of `sub` in `s` is followed by the separator or
by the end of `s`. -/
def wholeSegments : Str → Str → Bool
  | [], _ => true
  | c :: t, sub =>
    (!sub.isPrefixOf (c :: t) || endsSegment ((c :: t).drop sub.length)) && wholeSegments t sub

/-- The text up to the next separator. -/
def segmentBody : Str → Str
  | [] => []
  | c :: t => if c = '/' then [] else c :: segmentBody t

/-- For every separator of the text, the text between it and the next
separator. -/
def bodies : Str → List Str
  | [] => []
  | c :: t => if c = '/' then segmentBody t :: bodies t else bodies t

/-- Every segment body that starts with `w` is `w` itself. -/
def WholeBodies (w s : Str) : Prop := ∀ b ∈ bodies s, w.isPrefixOf b = true → b = w

/-- The invariant of the output buffer of `Clean` on a rooted path: the
buffer (held in reverse) starts with the separator and has no `..` component. -/
def Confined (out : Str) : Prop :=
  out.reverse.head? = some '/' ∧ ['.', '.'] ∉ components out.reverse

/-! ## The scanning functions, one step at a time -/

theorem replaceFrom_skip (old new : Str) (s : Str) : ∀ k : Nat,
    strings.replaceFrom old new k s = strings.replaceFrom old new 0 (s.drop k) := by
  induction s with
  | nil => intro k; cases k <;> simp [strings.replaceFrom]
  | cons c t ih =>
    intro k
    cases k with
    | zero => simp
    | succ k => simp [strings.replaceFrom, ih k]

theorem isPrefixOf_append_self (a b : Str) : a.isPrefixOf (a ++ b) = true := by
  induction a with
  | nil => simp
  | cons c a ih => simp [ih]

theorem isPrefixOf_cons_cons (a b : Char) (as bs : Str) :
    (a :: as).isPrefixOf (b :: bs) = (a == b && as.isPrefixOf bs) := rfl

theorem ReplaceAll_nil (o new : Str) : strings.ReplaceAll [] ('/' :: o) new = [] := by
  simp [strings.ReplaceAll, strings.replaceFrom]

/-- A match at the current position is replaced. -/
theorem ReplaceAll_match (o new rest : Str) :
    strings.ReplaceAll ('/' :: (o ++ rest)) ('/' :: o) new
      = new ++ strings.ReplaceAll rest ('/' :: o) new := by
  have h : ('/' :: o).isPrefixOf ('/' :: (o ++ rest)) = true := by
    simp [isPrefixOf_cons_cons, isPrefixOf_append_self]
  simp only [strings.ReplaceAll, List.cons_ne_nil, if_false, strings.replaceFrom, h, if_true]
  rw [replaceFrom_skip]
  simp

/-- A byte other than the separator is copied. -/
theorem ReplaceAll_cons_ne (c : Char) (t o new : Str) (hc : c ≠ '/') :
    strings.ReplaceAll (c :: t) ('/' :: o) new = c :: strings.ReplaceAll t ('/' :: o) new := by
  have h : ('/' :: o).isPrefixOf (c :: t) = false := by
    simp [isPrefixOf_cons_cons, Ne.symm hc]
  simp [strings.ReplaceAll, strings.replaceFrom, h]

/-- A separator that does not start a match is copied. -/
theorem ReplaceAll_slash (t o new : Str) (h : o.isPrefixOf t = false) :
    strings.ReplaceAll ('/' :: t) ('/' :: o) new = '/' :: strings.ReplaceAll t ('/' :: o) new := by
  have h2 : ('/' :: o).isPrefixOf ('/' :: t) = false := by
    simp [isPrefixOf_cons_cons, h]
  simp [strings.ReplaceAll, strings.replaceFrom, h2]

theorem digit_ne_slash (c : Char) (h : manifestTrailingFive.isDigit c = true) : c ≠ '/' := by
  rintro rfl
  revert h
  decide

/-- A run of digits is copied. -/
theorem ReplaceAll_digits (ds rest o new : Str)
    (hds : ∀ c ∈ ds, manifestTrailingFive.isDigit c = true) :
    strings.ReplaceAll (ds ++ rest) ('/' :: o) new = ds ++ strings.ReplaceAll rest ('/' :: o) new := by
  induction ds with
  | nil => simp
  | cons c ds ih =>
    rw [List.cons_append, ReplaceAll_cons_ne c _ o new (digit_ne_slash c (hds c (by simp))),
      ih (fun x hx => hds x (by simp [hx]))]
    simp

/-- A separator followed by a digit is copied when the pattern continues
with a byte that is not a digit. -/
theorem ReplaceAll_slash_digit (c x : Char) (t o new : Str)
    (hc : manifestTrailingFive.isDigit c = true) (hx : manifestTrailingFive.isDigit x = false) :
    strings.ReplaceAll ('/' :: c :: t) ('/' :: x :: o) new
      = '/' :: strings.ReplaceAll (c :: t) ('/' :: x :: o) new := by
  apply ReplaceAll_slash
  have : x ≠ c := by
    rintro rfl
    rw [hc] at hx
    exact absurd hx (by simp)
  simp [isPrefixOf_cons_cons, this]

theorem Contains_append_left (a b sub : Str) (h : strings.Contains b sub = true) :
    strings.Contains (a ++ b) sub = true := by
  induction a with
  | nil => simpa using h
  | cons c a ih => simp [strings.Contains, ih]

theorem Contains_of_starts (sub rest : Str) : strings.Contains (sub ++ rest) sub = true := by
  cases sub with
  | nil => cases rest <;> simp [strings.Contains]
  | cons c sub => simp [strings.Contains, isPrefixOf_append_self]

theorem ReplaceAllString_cons_ne (c : Char) (t repl : Str) (hc : c ≠ '/') :
    manifestTrailingFive.ReplaceAllString (c :: t) repl
      = c :: manifestTrailingFive.ReplaceAllString t repl := by
  have h : manifestTrailingFive.matchesHere (c :: t) = false := by
    unfold manifestTrailingFive.matchesHere
    split <;> simp_all
  simp [manifestTrailingFive.ReplaceAllString, h]

theorem ReplaceAllString_nomatch (c : Char) (t repl : Str)
    (h : manifestTrailingFive.matchesHere (c :: t) = false) :
    manifestTrailingFive.ReplaceAllString (c :: t) repl
      = c :: manifestTrailingFive.ReplaceAllString t repl := by
  simp [manifestTrailingFive.ReplaceAllString, h]

theorem ReplaceAllString_match (s repl : Str)
    (h : manifestTrailingFive.matchesHere s = true) :
    manifestTrailingFive.ReplaceAllString s repl = repl := by
  cases s with
  | nil => simp [manifestTrailingFive.matchesHere] at h
  | cons c t => simp [manifestTrailingFive.ReplaceAllString, h]

theorem ReplaceAllString_digits (ds rest repl : Str)
    (hds : ∀ c ∈ ds, manifestTrailingFive.isDigit c = true) :
    manifestTrailingFive.ReplaceAllString (ds ++ rest) repl
      = ds ++ manifestTrailingFive.ReplaceAllString rest repl := by
  induction ds with
  | nil => simp
  | cons c ds ih =>
    rw [List.cons_append, ReplaceAllString_cons_ne c _ repl (digit_ne_slash c (hds c (by simp))),
      ih (fun x hx => hds x (by simp [hx]))]
    simp

/-- The expression does not match at a separator that is followed by digits
and a later separator after which yet another separator occurs. -/
theorem matchesHere_slash_later (ds r : Str) (hne : ds ≠ [])
    (hds : ∀ c ∈ ds, manifestTrailingFive.isDigit c = true) (hr : '/' ∈ r) :
    manifestTrailingFive.matchesHere ('/' :: (ds ++ '/' :: r)) = false := by
  have hnd : manifestTrailingFive.isDigit '/' = false := by decide
  cases ds with
  | nil => exact absurd rfl hne
  | cons d0 ds =>
    cases ds with
    | nil =>
      cases r with
      | nil => simp at hr
      | cons r0 r =>
        simp only [List.cons_append, List.nil_append]
        unfold manifestTrailingFive.matchesHere
        split
        · simp_all
        · next heq =>
          simp only [List.cons.injEq, true_and] at heq
          obtain ⟨_, h3, h4⟩ := heq
          subst h3 h4
          simp only [List.all_cons, Bool.and_eq_false_iff]
          rcases List.mem_cons.mp hr with h | h
          · left; rw [← h]; exact hnd
          · right
            simp only [List.all_eq_false]
            exact ⟨'/', h, by simp [hnd]⟩
        · rfl
    | cons d1 ds =>
      have h1 : d1 ≠ '/' := digit_ne_slash d1 (hds d1 (by simp))
      simp only [List.cons_append]
      unfold manifestTrailingFive.matchesHere
      split
      · simp_all
      · next heq =>
        simp only [List.cons.injEq, true_and] at heq
        exact absurd heq.2.1 h1
      · rfl

/-- The expression does not match at a separator followed by a run of digits
other than the single digit `5`. -/
theorem matchesHere_digits_ne_five (ds rest : Str) (hne : ds ≠ [])
    (hds : ∀ c ∈ ds, manifestTrailingFive.isDigit c = true) (h5 : ds ≠ ['5']) :
    manifestTrailingFive.matchesHere ('/' :: (ds ++ rest)) = false := by
  cases ds with
  | nil => exact absurd rfl hne
  | cons d0 ds =>
    cases ds with
    | nil =>
      have : d0 ≠ '5' := fun h => h5 (by rw [h])
      simp only [List.cons_append, List.nil_append]
      unfold manifestTrailingFive.matchesHere
      split
      · next heq => simp only [List.cons.injEq, true_and] at heq; exact absurd heq.1 this
      · next heq => simp only [List.cons.injEq, true_and] at heq; exact absurd heq.1 this
      · rfl
    | cons d1 ds =>
      have h1 : d1 ≠ '/' := digit_ne_slash d1 (hds d1 (by simp))
      simp only [List.cons_append]
      unfold manifestTrailingFive.matchesHere
      split
      · simp_all
      · next heq =>
        simp only [List.cons.injEq, true_and] at heq
        exact absurd heq.2.1 h1
      · rfl

/-! ## Counting occurrences of `/depots` -/

/-- Induction along the scan of a text for a pattern that starts with the
separator: the text is empty, starts with another byte, starts with a
separator that begins no match, or starts with a match. -/
theorem scan_induction (o : Str) (P : Str → Prop) (hnil : P [])
    (hne : ∀ (c : Char) (t : Str), c ≠ '/' → P t → P (c :: t))
    (hslash : ∀ t : Str, o.isPrefixOf t = false → P t → P ('/' :: t))
    (hmatch : ∀ rest : Str, P rest → P ('/' :: (o ++ rest))) : ∀ s : Str, P s := by
  have key : ∀ (n : Nat) (s : Str), s.length ≤ n → P s := by
    intro n
    induction n with
    | zero =>
      intro s hs
      cases s with
      | nil => exact hnil
      | cons c t => simp at hs
    | succ n ih =>
      intro s hs
      cases s with
      | nil => exact hnil
      | cons c t =>
        have hlt : t.length ≤ n := by simpa using hs
        by_cases hc : c = '/'
        · subst hc
          cases hpre : o.isPrefixOf t with
          | false => exact hslash t hpre (ih t hlt)
          | true =>
            obtain ⟨rest, hrest⟩ := List.isPrefixOf_iff_prefix.mp hpre
            subst hrest
            exact hmatch rest (ih rest (by simp at hlt; omega))
        · exact hne c t hc (ih t hlt)
  exact fun s => key s.length s (Nat.le_refl _)

theorem occurrences_cons_ne (c : Char) (t w : Str) (hc : c ≠ '/') :
    occurrences (c :: t) ('/' :: w) = occurrences t ('/' :: w) := by
  simp [occurrences, isPrefixOf_cons_cons, Ne.symm hc]

theorem occurrences_slash (t w : Str) :
    occurrences ('/' :: t) ('/' :: w)
      = (if w.isPrefixOf t then 1 else 0) + occurrences t ('/' :: w) := by
  simp [occurrences, isPrefixOf_cons_cons]

/-- A run without separator in front of a text holds no occurrence. -/
theorem occurrences_append_no_slash (b rest w : Str) (hb : '/' ∉ b) :
    occurrences (b ++ rest) ('/' :: w) = occurrences rest ('/' :: w) := by
  induction b with
  | nil => rfl
  | cons c b ih =>
    have hc : c ≠ '/' := fun h => hb (by simp [h])
    rw [List.cons_append, occurrences_cons_ne c _ w hc, ih (fun h => hb (by simp [h]))]

theorem countFrom_skip (sub : Str) (s : Str) : ∀ k : Nat,
    strings.countFrom sub k s = strings.countFrom sub 0 (s.drop k) := by
  induction s with
  | nil => intro k; cases k <;> simp [strings.countFrom]
  | cons c t ih =>
    intro k
    cases k with
    | zero => simp
    | succ k => simp [strings.countFrom, ih k]

/-- For a pattern that has the separator as its first byte only, occurrences
cannot overlap: `strings.Count` counts all of them. -/
theorem Count_eq_occurrences (w : Str) (hw : '/' ∉ w) (s : Str) :
    strings.Count s ('/' :: w) = occurrences s ('/' :: w) := by
  refine scan_induction w (fun s => strings.Count s ('/' :: w) = occurrences s ('/' :: w))
    ?_ ?_ ?_ ?_ s
  · simp [strings.Count, strings.countFrom, occurrences]
  · intro c t hc ih
    rw [occurrences_cons_ne c t w hc, ← ih]
    simp [strings.Count, strings.countFrom, isPrefixOf_cons_cons, Ne.symm hc]
  · intro t hpre ih
    rw [occurrences_slash, ← ih]
    simp [strings.Count, strings.countFrom, isPrefixOf_cons_cons, hpre]
  · intro rest ih
    rw [occurrences_slash, occurrences_append_no_slash w rest w hw, ← ih]
    have h : ('/' :: w).isPrefixOf ('/' :: (w ++ rest)) = true := by
      simp [isPrefixOf_cons_cons, isPrefixOf_append_self]
    simp only [strings.Count, List.cons_ne_nil, if_false, strings.countFrom, h, if_true,
      isPrefixOf_append_self]
    rw [countFrom_skip]
    simp

theorem Contains_iff_occurrences (s w : Str) :
    strings.Contains s ('/' :: w) = true ↔ 0 < occurrences s ('/' :: w) := by
  induction s with
  | nil => simp [strings.Contains, occurrences]
  | cons c t ih =>
    simp only [strings.Contains, occurrences, Bool.or_eq_true, ih]
    by_cases h : ('/' :: w).isPrefixOf (c :: t) = true
    · simp [h]
    · simp [h]

/-- A prefix without separator survives the removal of a pattern that starts
with the separator. -/
theorem isPrefixOf_ReplaceAll (w : Str) (hw : '/' ∉ w) (o new : Str) : ∀ t : Str,
    w.isPrefixOf t = true → w.isPrefixOf (strings.ReplaceAll t ('/' :: o) new) = true := by
  induction w with
  | nil => intro t _; simp
  | cons a w ih =>
    intro t ht
    cases t with
    | nil => simp at ht
    | cons c t =>
      simp only [isPrefixOf_cons_cons, Bool.and_eq_true, beq_iff_eq] at ht
      have ha : a ≠ '/' := fun h => hw (by simp [h])
      have hc : c ≠ '/' := ht.1 ▸ ha
      rw [ReplaceAll_cons_ne c t o new hc]
      simp only [isPrefixOf_cons_cons, Bool.and_eq_true, beq_iff_eq]
      exact ⟨ht.1, ih (fun h => hw (by simp [h])) t ht.2⟩

/-- Replacing `/depot` by `/depots` yields at least as many `/depots` as
there were `/depot`. -/
theorem occurrences_pluralise (s : Str) :
    occurrences s "/depot".toList
      ≤ occurrences (strings.ReplaceAll s "/depot".toList "/depots".toList) "/depots".toList := by
  show occurrences s ('/' :: ['d', 'e', 'p', 'o', 't'])
      ≤ occurrences (strings.ReplaceAll s ('/' :: ['d', 'e', 'p', 'o', 't'])
          ['/', 'd', 'e', 'p', 'o', 't', 's']) ('/' :: ['d', 'e', 'p', 'o', 't', 's'])
  refine scan_induction ['d', 'e', 'p', 'o', 't']
    (fun s => occurrences s ('/' :: ['d', 'e', 'p', 'o', 't'])
      ≤ occurrences (strings.ReplaceAll s ('/' :: ['d', 'e', 'p', 'o', 't'])
          ['/', 'd', 'e', 'p', 'o', 't', 's']) ('/' :: ['d', 'e', 'p', 'o', 't', 's']))
    ?_ ?_ ?_ ?_ s
  · simp [occurrences]
  · intro c t hc ih
    rw [ReplaceAll_cons_ne c t _ _ hc, occurrences_cons_ne c _ _ hc, occurrences_cons_ne c _ _ hc]
    exact ih
  · intro t hpre ih
    rw [ReplaceAll_slash t _ _ hpre, occurrences_slash, occurrences_slash, hpre]
    simp only [Bool.false_eq_true, if_false, Nat.zero_add]
    exact Nat.le_trans ih (Nat.le_add_left _ _)
  · intro rest ih
    rw [ReplaceAll_match, occurrences_slash,
      occurrences_append_no_slash ['d', 'e', 'p', 'o', 't'] rest _ (by decide),
      isPrefixOf_append_self]
    show _ ≤ occurrences ('/' :: (['d', 'e', 'p', 'o', 't', 's'] ++ _)) _
    rw [occurrences_slash, occurrences_append_no_slash ['d', 'e', 'p', 'o', 't', 's'] _ _
      (by decide), isPrefixOf_append_self]
    simp only [if_true]
    omega

/-- Removing a pattern that starts with the separator and differs from
`/w` in its second byte loses no occurrence of `/w`. -/
theorem occurrences_remove (x y : Char) (o w : Str) (hxy : x ≠ y) (ho : '/' ∉ x :: o)
    (hw : '/' ∉ y :: w) (s : Str) :
    occurrences s ('/' :: y :: w)
      ≤ occurrences (strings.ReplaceAll s ('/' :: x :: o) []) ('/' :: y :: w) := by
  refine scan_induction (x :: o)
    (fun s => occurrences s ('/' :: y :: w)
      ≤ occurrences (strings.ReplaceAll s ('/' :: x :: o) []) ('/' :: y :: w)) ?_ ?_ ?_ ?_ s
  · simp [ReplaceAll_nil]
  · intro c t hc ih
    rw [ReplaceAll_cons_ne c t _ _ hc, occurrences_cons_ne c _ _ hc, occurrences_cons_ne c _ _ hc]
    exact ih
  · intro t hpre ih
    rw [ReplaceAll_slash t _ _ hpre, occurrences_slash, occurrences_slash]
    by_cases h : (y :: w).isPrefixOf t = true
    · rw [if_pos h, if_pos (isPrefixOf_ReplaceAll (y :: w) hw (x :: o) [] t h)]
      omega
    · rw [if_neg h]
      split <;> omega
  · intro rest ih
    rw [ReplaceAll_match, occurrences_slash, occurrences_append_no_slash (x :: o) rest _ ho]
    have h : (y :: w).isPrefixOf (x :: o ++ rest) = false := by
      simp [isPrefixOf_cons_cons, Ne.symm hxy]
    rw [List.nil_append]
    simp only [h, Bool.false_eq_true, if_false, Nat.zero_add]
    exact ih


theorem digits_no_slash (ds : Str) (hds : ∀ c ∈ ds, manifestTrailingFive.isDigit c = true) :
    '/' ∉ ds :=
  fun h => digit_ne_slash '/' (hds '/' h) rfl

/-- The text the regular expression matches holds no occurrence of a pattern
`/y...` whose second byte is not a digit. -/
theorem occurrences_of_match (y : Char) (w s : Str)
    (hy : manifestTrailingFive.isDigit y = false)
    (h : manifestTrailingFive.matchesHere s = true) : occurrences s ('/' :: y :: w) = 0 := by
  have h5 : y ≠ '5' := by
    rintro rfl
    revert hy
    decide
  unfold manifestTrailingFive.matchesHere at h
  split at h
  · simp [occurrences, isPrefixOf_cons_cons, h5]
  · next d ds =>
    have hall : ∀ c ∈ d :: ds, manifestTrailingFive.isDigit c = true := by
      simpa [List.all_eq_true] using h
    have hyd : y ≠ d := by
      rintro rfl
      rw [hall y (by simp)] at hy
      exact absurd hy (by simp)
    have hno := occurrences_append_no_slash (d :: ds) [] (y :: w) (digits_no_slash _ hall)
    rw [List.append_nil] at hno
    rw [occurrences_slash, occurrences_cons_ne '5' _ _ (by decide), occurrences_slash, hno]
    simp [isPrefixOf_cons_cons, h5, hyd, occurrences]
  · simp at h

/-- A prefix without separator survives the removal of the trailing match. -/
theorem isPrefixOf_ReplaceAllString (w : Str) (hw : '/' ∉ w) (repl : Str) : ∀ t : Str,
    w.isPrefixOf t = true → w.isPrefixOf (manifestTrailingFive.ReplaceAllString t repl) = true := by
  induction w with
  | nil => intro t _; simp
  | cons a w ih =>
    intro t ht
    cases t with
    | nil => simp at ht
    | cons c t =>
      simp only [isPrefixOf_cons_cons, Bool.and_eq_true, beq_iff_eq] at ht
      have ha : a ≠ '/' := fun h => hw (by simp [h])
      have hc : c ≠ '/' := ht.1 ▸ ha
      rw [ReplaceAllString_cons_ne c t repl hc]
      simp only [isPrefixOf_cons_cons, Bool.and_eq_true, beq_iff_eq]
      exact ⟨ht.1, ih (fun h => hw (by simp [h])) t ht.2⟩

/-- Removing the trailing match loses no occurrence of a pattern `/y...`
whose second byte is not a digit. -/
theorem occurrences_strip (y : Char) (w : Str) (hy : manifestTrailingFive.isDigit y = false)
    (hw : '/' ∉ y :: w) (s : Str) :
    occurrences s ('/' :: y :: w)
      ≤ occurrences (manifestTrailingFive.ReplaceAllString s []) ('/' :: y :: w) := by
  induction s with
  | nil => simp [manifestTrailingFive.ReplaceAllString]
  | cons c t ih =>
    cases hmatch : manifestTrailingFive.matchesHere (c :: t) with
    | true => rw [occurrences_of_match y w _ hy hmatch]; exact Nat.zero_le _
    | false =>
      rw [ReplaceAllString_nomatch c t [] hmatch]
      by_cases hc : c = '/'
      · subst hc
        rw [occurrences_slash, occurrences_slash]
        by_cases h : (y :: w).isPrefixOf t = true
        · rw [if_pos h, if_pos (isPrefixOf_ReplaceAllString (y :: w) hw [] t h)]
          omega
        · rw [if_neg h]
          split <;> omega
      · rw [occurrences_cons_ne c _ _ hc, occurrences_cons_ne c _ _ hc]
        exact ih

theorem isPrefixOf_append_right (a x z : Str) (h : a.isPrefixOf x = true) :
    a.isPrefixOf (x ++ z) = true := by
  induction a generalizing x with
  | nil => simp
  | cons c a ih =>
    cases x with
    | nil => simp at h
    | cons d x =>
      simp only [isPrefixOf_cons_cons, Bool.and_eq_true, beq_iff_eq] at h
      simp only [List.cons_append, isPrefixOf_cons_cons, Bool.and_eq_true, beq_iff_eq]
      exact ⟨h.1, ih x h.2⟩

theorem occurrences_cons (c : Char) (t sub : Str) :
    occurrences (c :: t) sub
      = (if sub.isPrefixOf (c :: t) then 1 else 0) + occurrences t sub := rfl

/-- Appending text loses no occurrence. -/
theorem occurrences_append_right (s z w : Str) :
    occurrences s ('/' :: w) ≤ occurrences (s ++ z) ('/' :: w) := by
  induction s with
  | nil => simp [occurrences]
  | cons c t ih =>
    rw [List.cons_append, occurrences_cons, occurrences_cons]
    by_cases h : ('/' :: w).isPrefixOf (c :: t) = true
    · have h2 := isPrefixOf_append_right _ _ z h
      rw [List.cons_append] at h2
      rw [if_pos h, if_pos h2]
      omega
    · rw [if_neg h]
      split <;> omega

/-- C10 (depot pluralisation): the cache key holds at least as many
non-overlapping occurrences of `/depots` as the request path holds
occurrences of `/depot`; so the key of a path containing `/depot` contains
`/depots`. -/
theorem depot_pluralised (p : Str) :
    occurrences p "/depot".toList ≤ strings.Count (rewrite p) "/depots".toList ∧
    (strings.Contains p "/depot".toList = true →
      strings.Contains (rewrite p) "/depots".toList = true) := by
  have hcount : occurrences p "/depot".toList ≤ occurrences (rewrite p) "/depots".toList := by
    have h1 := occurrences_pluralise p
    have h2 := occurrences_remove 'c' 'd' ['h', 'u', 'n', 'k'] ['e', 'p', 'o', 't', 's']
      (by decide) (by decide) (by decide)
      (strings.ReplaceAll p "/depot".toList "/depots".toList)
    have h3 := occurrences_remove 'm' 'd' ['a', 'n', 'i', 'f', 'e', 's', 't']
      ['e', 'p', 'o', 't', 's'] (by decide) (by decide) (by decide)
      (strings.ReplaceAll (strings.ReplaceAll p "/depot".toList "/depots".toList)
        "/chunk".toList [])
    have h4 := occurrences_strip 'd' ['e', 'p', 'o', 't', 's'] (by decide) (by decide)
      (strings.ReplaceAll (strings.ReplaceAll (strings.ReplaceAll p "/depot".toList
        "/depots".toList) "/chunk".toList []) "/manifest".toList [])
    have h5 := occurrences_append_right
      (manifestTrailingFive.ReplaceAllString (strings.ReplaceAll (strings.ReplaceAll
        (strings.ReplaceAll p "/depot".toList "/depots".toList) "/chunk".toList [])
        "/manifest".toList []) []) ".zip".toList ['d', 'e', 'p', 'o', 't', 's']
    unfold rewrite
    simp only []
    split
    · exact Nat.le_trans h1 (Nat.le_trans h2 (Nat.le_trans h3 (Nat.le_trans h4 h5)))
    · exact Nat.le_trans h1 h2
  refine ⟨?_, ?_⟩
  · rw [show "/depots".toList = '/' :: ['d', 'e', 'p', 'o', 't', 's'] from rfl,
      Count_eq_occurrences _ (by decide)]
    exact hcount
  · intro h
    have h0 : 0 < occurrences p "/depot".toList :=
      (Contains_iff_occurrences p ['d', 'e', 'p', 'o', 't']).mp h
    exact (Contains_iff_occurrences (rewrite p) ['d', 'e', 'p', 'o', 't', 's']).mpr
      (Nat.lt_of_lt_of_le h0 hcount)

/-- Both `/depot` of `/depot/1/depot/2` are pluralised. -/
theorem depot_pluralised_witness :
    occurrences "/depot/1/depot/2".toList "/depot".toList
      ≤ strings.Count (rewrite "/depot/1/depot/2".toList) "/depots".toList ∧
    strings.Contains (rewrite "/depot/1/depot/2".toList) "/depots".toList = true :=
  ⟨(depot_pluralised "/depot/1/depot/2".toList).1,
    (depot_pluralised "/depot/1/depot/2".toList).2 (by decide)⟩

/-! ## Removal of the `/chunk` segment -/

/-- C9 as stated fails: removing `/chunk` from `/chu/chunknk` joins the
text around it into a new `/chunk`, which is the cache key. -/
theorem nested_chunk_survives :
    strings.Contains "/chu/chunknk".toList "/chunk".toList = true ∧
    rewrite "/chu/chunknk".toList = "/chunk".toList ∧
    strings.Contains (rewrite "/chu/chunknk".toList) "/chunk".toList = true := by
  decide

/-- Removing `/manifest` can form a `/chunk` as well, also when every
`/chunk` of the request path is a whole segment. -/
theorem manifest_removal_joins_chunk :
    wholeSegments "/chunk/chu/manifestnk".toList "/chunk".toList = true ∧
    rewrite "/chunk/chu/manifestnk".toList = "/chunk.zip".toList ∧
    strings.Contains (rewrite "/chunk/chu/manifestnk".toList) "/chunk".toList = true := by
  decide

theorem segmentBody_cons_ne (c : Char) (t : Str) (hc : c ≠ '/') :
    segmentBody (c :: t) = c :: segmentBody t := by
  simp [segmentBody, hc]

theorem segmentBody_slash (t : Str) : segmentBody ('/' :: t) = [] := by
  simp [segmentBody]

theorem segmentBody_append (w r : Str) (hw : '/' ∉ w) :
    segmentBody (w ++ r) = w ++ segmentBody r := by
  induction w with
  | nil => rfl
  | cons c w ih =>
    have hc : c ≠ '/' := fun h => hw (by simp [h])
    rw [List.cons_append, segmentBody_cons_ne c _ hc, ih (fun h => hw (by simp [h]))]
    rfl

theorem bodies_cons_ne (c : Char) (t : Str) (hc : c ≠ '/') : bodies (c :: t) = bodies t := by
  simp [bodies, hc]

theorem bodies_slash (t : Str) : bodies ('/' :: t) = segmentBody t :: bodies t := by
  simp [bodies]

theorem bodies_append (w r : Str) (hw : '/' ∉ w) : bodies (w ++ r) = bodies r := by
  induction w with
  | nil => rfl
  | cons c w ih =>
    have hc : c ≠ '/' := fun h => hw (by simp [h])
    rw [List.cons_append, bodies_cons_ne c _ hc, ih (fun h => hw (by simp [h]))]

/-- A text without separator is a prefix of a text exactly when it is a
prefix of the text up to the next separator. -/
theorem isPrefixOf_segmentBody (w : Str) (hw : '/' ∉ w) : ∀ t : Str,
    w.isPrefixOf (segmentBody t) = w.isPrefixOf t := by
  induction w with
  | nil => intro t; simp
  | cons a w ih =>
    intro t
    have ha : a ≠ '/' := fun h => hw (by simp [h])
    cases t with
    | nil => rfl
    | cons c t =>
      by_cases hc : c = '/'
      · subst hc
        rw [segmentBody_slash, isPrefixOf_cons_cons]
        simp [ha]
      · rw [segmentBody_cons_ne c t hc, isPrefixOf_cons_cons, isPrefixOf_cons_cons,
          ih (fun h => hw (by simp [h])) t]

theorem isPrefixOf_elim (a t : Str) (h : a.isPrefixOf t = true) : ∃ r, t = a ++ r := by
  induction a generalizing t with
  | nil => exact ⟨t, rfl⟩
  | cons c a ih =>
    cases t with
    | nil => simp at h
    | cons d t =>
      simp only [isPrefixOf_cons_cons, Bool.and_eq_true, beq_iff_eq] at h
      obtain ⟨r, hr⟩ := ih t h.2
      exact ⟨r, by rw [h.1, hr]; rfl⟩

/-- The membership form of `wholeSegments`: whenever the path is cut into a
text, the pattern and a rest, the rest is empty or starts with the separator. -/
theorem wholeSegments_iff (sub : Str) (hsub : sub ≠ []) (s : Str) :
    wholeSegments s sub = true ↔ ∀ a b : Str, s = a ++ sub ++ b → endsSegment b = true := by
  induction s with
  | nil =>
    simp only [wholeSegments, true_iff]
    intro a b h
    have h2 := congrArg List.length h
    simp only [List.length_nil, List.length_append] at h2
    have : sub.length = 0 := by omega
    exact absurd (List.length_eq_zero.mp this) hsub
  | cons c t ih =>
    simp only [wholeSegments, Bool.and_eq_true, Bool.or_eq_true, Bool.not_eq_true', ih]
    constructor
    · rintro ⟨hhead, htail⟩ a b hab
      cases a with
      | nil =>
        rw [List.nil_append] at hab
        have hpre : sub.isPrefixOf (c :: t) = true := by
          rw [hab]; exact isPrefixOf_append_self sub b
        rw [hpre] at hhead
        rcases hhead with h | h
        · exact absurd h (by simp)
        · rw [hab] at h
          simpa using h
      | cons x a =>
        have ht : t = a ++ sub ++ b := by
          simp only [List.cons_append, List.cons.injEq] at hab
          exact hab.2
        exact htail a b ht
    · intro h
      refine ⟨?_, fun a b hab => h (c :: a) b (by rw [hab]; rfl)⟩
      cases hpre : sub.isPrefixOf (c :: t) with
      | false => exact Or.inl rfl
      | true =>
        right
        obtain ⟨r, hr⟩ := isPrefixOf_elim sub (c :: t) hpre
        rw [hr]
        have := h [] r (by rw [hr]; rfl)
        simpa using this

/-- A pattern `/w` occurs in a text exactly when `w` starts one of its
segment bodies. -/
theorem Contains_iff_bodies (w : Str) (hw : '/' ∉ w) (s : Str) :
    strings.Contains s ('/' :: w) = true ↔ ∃ b ∈ bodies s, w.isPrefixOf b = true := by
  induction s with
  | nil => simp [strings.Contains, bodies]
  | cons c t ih =>
    by_cases hc : c = '/'
    · subst hc
      simp only [strings.Contains, Bool.or_eq_true, ih, bodies_slash, List.mem_cons,
        isPrefixOf_cons_cons, beq_self_eq_true, Bool.true_and]
      constructor
      · rintro (h | ⟨b, hb, hwb⟩)
        · exact ⟨segmentBody t, Or.inl rfl, by rw [isPrefixOf_segmentBody w hw]; exact h⟩
        · exact ⟨b, Or.inr hb, hwb⟩
      · rintro ⟨b, hb | hb, hwb⟩
        · left
          rw [hb, isPrefixOf_segmentBody w hw] at hwb
          exact hwb
        · exact Or.inr ⟨b, hb, hwb⟩
    · simp only [strings.Contains, Bool.or_eq_true, ih, bodies_cons_ne c t hc,
        isPrefixOf_cons_cons]
      have : ('/' == c) = false := by simp [Ne.symm hc]
      simp [this]

theorem wholeBodies_of_wholeSegments (w : Str) (hw : '/' ∉ w) (s : Str)
    (h : wholeSegments s ('/' :: w) = true) : WholeBodies w s := by
  induction s with
  | nil => intro b hb; simp [bodies] at hb
  | cons c t ih =>
    simp only [wholeSegments, Bool.and_eq_true, Bool.or_eq_true, Bool.not_eq_true'] at h
    obtain ⟨hhead, htail⟩ := h
    by_cases hc : c = '/'
    · subst hc
      intro b hb hwb
      rw [bodies_slash] at hb
      rcases List.mem_cons.mp hb with hb | hb
      · subst hb
        rw [isPrefixOf_segmentBody w hw] at hwb
        obtain ⟨r, hr⟩ := isPrefixOf_elim w t hwb
        subst hr
        have hpre : ('/' :: w).isPrefixOf ('/' :: (w ++ r)) = true := by
          simp [isPrefixOf_cons_cons, isPrefixOf_append_self]
        rw [hpre] at hhead
        have hends : endsSegment r = true := by simpa using hhead
        rw [segmentBody_append w r hw]
        cases r with
        | nil => simp [segmentBody]
        | cons x r =>
          have hx : x = '/' := by simpa [endsSegment] using hends
          subst hx
          simp [segmentBody]
      · exact ih htail b hb hwb
    · intro b hb hwb
      rw [bodies_cons_ne c t hc] at hb
      exact ih htail b hb hwb

theorem WholeBodies.tail {w : Str} {c : Char} {t : Str} (h : WholeBodies w (c :: t)) :
    WholeBodies w t := by
  intro b hb hwb
  apply h b _ hwb
  by_cases hc : c = '/'
  · subst hc; rw [bodies_slash]; exact List.mem_cons_of_mem _ hb
  · rw [bodies_cons_ne c t hc]; exact hb

/-- Removing a pattern `/o` all of whose occurrences are whole segments
removes those segments and leaves the other segment bodies as they are. -/
theorem bodies_remove (o : Str) (ho : '/' ∉ o) (s : Str) :
    WholeBodies o s →
      segmentBody (strings.ReplaceAll s ('/' :: o) []) = segmentBody s ∧
      ∀ b ∈ bodies (strings.ReplaceAll s ('/' :: o) []), b ∈ bodies s ∧ b ≠ o := by
  refine scan_induction o
    (fun s => WholeBodies o s →
      segmentBody (strings.ReplaceAll s ('/' :: o) []) = segmentBody s ∧
      ∀ b ∈ bodies (strings.ReplaceAll s ('/' :: o) []), b ∈ bodies s ∧ b ≠ o) ?_ ?_ ?_ ?_ s
  · intro _
    rw [ReplaceAll_nil]
    simp [bodies]
  · intro c t hc ih hW
    obtain ⟨ih1, ih2⟩ := ih hW.tail
    rw [ReplaceAll_cons_ne c t o [] hc, segmentBody_cons_ne c _ hc, segmentBody_cons_ne c _ hc,
      bodies_cons_ne c _ hc, bodies_cons_ne c _ hc, ih1]
    exact ⟨rfl, ih2⟩
  · intro t hpre ih hW
    obtain ⟨ih1, ih2⟩ := ih hW.tail
    rw [ReplaceAll_slash t o [] hpre, segmentBody_slash, segmentBody_slash, bodies_slash,
      bodies_slash, ih1]
    refine ⟨rfl, ?_⟩
    intro b hb
    rcases List.mem_cons.mp hb with hb | hb
    · subst hb
      refine ⟨List.mem_cons_self _ _, ?_⟩
      intro heq
      have h1 : o.isPrefixOf (segmentBody t) = true := by
        rw [heq]
        have := isPrefixOf_append_self o []
        rw [List.append_nil] at this
        exact this
      rw [isPrefixOf_segmentBody o ho, hpre] at h1
      exact absurd h1 (by simp)
    · exact ⟨List.mem_cons_of_mem _ (ih2 b hb).1, (ih2 b hb).2⟩
  · intro rest ih hW
    have hbodies : bodies ('/' :: (o ++ rest)) = (o ++ segmentBody rest) :: bodies rest := by
      rw [bodies_slash, segmentBody_append o rest ho, bodies_append o rest ho]
    have hWrest : WholeBodies o rest := by
      intro b hb hwb
      apply hW b _ hwb
      rw [hbodies]
      exact List.mem_cons_of_mem _ hb
    have hempty : segmentBody rest = [] := by
      have := hW (o ++ segmentBody rest) (by rw [hbodies]; exact List.mem_cons_self _ _)
        (isPrefixOf_append_self o _)
      simpa using this
    obtain ⟨ih1, ih2⟩ := ih hWrest
    rw [ReplaceAll_match, List.nil_append, segmentBody_slash, ih1, hbodies]
    exact ⟨hempty, fun b hb => ⟨List.mem_cons_of_mem _ (ih2 b hb).1, (ih2 b hb).2⟩⟩


/-- Replacing `/depot` by `/depots` leaves every segment body as it is or
turns it into one that starts with `depots`. -/
theorem bodies_pluralise (s : Str) :
    segmentBody (strings.ReplaceAll s ('/' :: ['d', 'e', 'p', 'o', 't'])
        ['/', 'd', 'e', 'p', 'o', 't', 's']) = segmentBody s ∧
    ∀ b ∈ bodies (strings.ReplaceAll s ('/' :: ['d', 'e', 'p', 'o', 't'])
        ['/', 'd', 'e', 'p', 'o', 't', 's']),
      b ∈ bodies s ∨ ∃ r, b = ['d', 'e', 'p', 'o', 't', 's'] ++ r := by
  refine scan_induction ['d', 'e', 'p', 'o', 't']
    (fun s => segmentBody (strings.ReplaceAll s ('/' :: ['d', 'e', 'p', 'o', 't'])
        ['/', 'd', 'e', 'p', 'o', 't', 's']) = segmentBody s ∧
      ∀ b ∈ bodies (strings.ReplaceAll s ('/' :: ['d', 'e', 'p', 'o', 't'])
          ['/', 'd', 'e', 'p', 'o', 't', 's']),
        b ∈ bodies s ∨ ∃ r, b = ['d', 'e', 'p', 'o', 't', 's'] ++ r) ?_ ?_ ?_ ?_ s
  · beta_reduce
    rw [ReplaceAll_nil]
    simp [bodies]
  · intro c t hc ih
    obtain ⟨ih1, ih2⟩ := ih
    rw [ReplaceAll_cons_ne c t _ _ hc, segmentBody_cons_ne c _ hc, segmentBody_cons_ne c _ hc,
      bodies_cons_ne c _ hc, bodies_cons_ne c _ hc, ih1]
    exact ⟨rfl, ih2⟩
  · intro t hpre ih
    obtain ⟨ih1, ih2⟩ := ih
    rw [ReplaceAll_slash t _ _ hpre, segmentBody_slash, segmentBody_slash, bodies_slash,
      bodies_slash, ih1]
    refine ⟨rfl, ?_⟩
    intro b hb
    rcases List.mem_cons.mp hb with hb | hb
    · exact Or.inl (by rw [hb]; exact List.mem_cons_self _ _)
    · rcases ih2 b hb with h | h
      · exact Or.inl (List.mem_cons_of_mem _ h)
      · exact Or.inr h
  · intro rest ih
    obtain ⟨_, ih2⟩ := ih
    rw [ReplaceAll_match, segmentBody_slash]
    refine ⟨rfl, ?_⟩
    intro b hb
    have hb2 : b ∈ bodies ('/' :: (['d', 'e', 'p', 'o', 't', 's'] ++
        strings.ReplaceAll rest ('/' :: ['d', 'e', 'p', 'o', 't'])
          ['/', 'd', 'e', 'p', 'o', 't', 's'])) := hb
    rw [bodies_slash, segmentBody_append _ _ (by decide), bodies_append _ _ (by decide)] at hb2
    rcases List.mem_cons.mp hb2 with h | h
    · exact Or.inr ⟨_, h⟩
    · rcases ih2 b h with h | h
      · left
        rw [bodies_slash, bodies_append _ _ (by decide)]
        exact List.mem_cons_of_mem _ h
      · exact Or.inr h

/-- Removing the trailing match keeps the segment bodies in front of it. -/
theorem bodies_strip (s : Str) :
    segmentBody (manifestTrailingFive.ReplaceAllString s []) = segmentBody s ∧
    ∀ b ∈ bodies (manifestTrailingFive.ReplaceAllString s []), b ∈ bodies s := by
  induction s with
  | nil => simp [manifestTrailingFive.ReplaceAllString, bodies]
  | cons c t ih =>
    obtain ⟨ih1, ih2⟩ := ih
    cases hmatch : manifestTrailingFive.matchesHere (c :: t) with
    | true =>
      rw [ReplaceAllString_match _ [] hmatch]
      have hc : c = '/' := by
        unfold manifestTrailingFive.matchesHere at hmatch
        split at hmatch <;> simp_all
      subst hc
      rw [segmentBody_slash]
      exact ⟨rfl, fun b hb => by simp [bodies] at hb⟩
    | false =>
      rw [ReplaceAllString_nomatch c t [] hmatch]
      by_cases hc : c = '/'
      · subst hc
        rw [segmentBody_slash, segmentBody_slash, bodies_slash, bodies_slash, ih1]
        refine ⟨rfl, ?_⟩
        intro b hb
        rcases List.mem_cons.mp hb with hb | hb
        · rw [hb]; exact List.mem_cons_self _ _
        · exact List.mem_cons_of_mem _ (ih2 b hb)
      · rw [segmentBody_cons_ne c _ hc, segmentBody_cons_ne c _ hc, bodies_cons_ne c _ hc,
          bodies_cons_ne c _ hc, ih1]
        exact ⟨rfl, ih2⟩

/-- A pattern that lacks the first byte of the appended text and was no
prefix before the text was appended is no prefix afterwards. -/
theorem isPrefixOf_append_of_not_mem (pat x : Str) (z0 : Char) (z : Str) (hz : z0 ∉ pat)
    (h : pat.isPrefixOf (x ++ z0 :: z) = true) : pat.isPrefixOf x = true := by
  induction pat generalizing x with
  | nil => simp
  | cons a pat ih =>
    cases x with
    | nil =>
      simp only [List.nil_append, isPrefixOf_cons_cons, Bool.and_eq_true, beq_iff_eq] at h
      exact absurd (by simp [h.1]) hz
    | cons d x =>
      simp only [List.cons_append, isPrefixOf_cons_cons, Bool.and_eq_true, beq_iff_eq] at h
      simp only [isPrefixOf_cons_cons, Bool.and_eq_true, beq_iff_eq]
      exact ⟨h.1, ih x (fun hm => hz (by simp [hm])) h.2⟩

/-- Appending `.zip` creates no occurrence of `/chunk`. -/
theorem Contains_append_zip (s : Str)
    (h : strings.Contains s "/chunk".toList = false) :
    strings.Contains (s ++ ".zip".toList) "/chunk".toList = false := by
  induction s with
  | nil => decide
  | cons c t ih =>
    simp only [strings.Contains, Bool.or_eq_false_iff] at h
    rw [List.cons_append]
    simp only [strings.Contains, Bool.or_eq_false_iff]
    refine ⟨?_, ih h.2⟩
    cases hp : ("/chunk".toList).isPrefixOf (c :: (t ++ ".zip".toList)) with
    | false => rfl
    | true =>
      have := isPrefixOf_append_of_not_mem "/chunk".toList (c :: t) '.' "zip".toList
        (by decide) hp
      rw [this] at h
      exact absurd h.1 (by simp)

/-- C9 (amended): when every occurrence of `/chunk` and of `/manifest` in the
request path is a whole path segment (followed by `/` or by the end of the
path), the cache key produced by the rewrite contains no `/chunk`. -/
theorem chunk_segment_removed (p : Str)
    (hchunk : wholeSegments p "/chunk".toList = true)
    (hmanifest : wholeSegments p "/manifest".toList = true) :
    strings.Contains (rewrite p) "/chunk".toList = false := by
  have hWc : WholeBodies ['c', 'h', 'u', 'n', 'k'] p :=
    wholeBodies_of_wholeSegments _ (by decide) p hchunk
  have hWm : WholeBodies ['m', 'a', 'n', 'i', 'f', 'e', 's', 't'] p :=
    wholeBodies_of_wholeSegments _ (by decide) p hmanifest
  -- step 1
  have hW1 : ∀ (a : Char) (w : Str), a ≠ 'd' → WholeBodies (a :: w) p →
      WholeBodies (a :: w) (strings.ReplaceAll p "/depot".toList "/depots".toList) := by
    intro a w had hW b hb hwb
    rcases (bodies_pluralise p).2 b hb with h | ⟨r, hr⟩
    · exact hW b h hwb
    · subst hr
      simp only [List.cons_append, isPrefixOf_cons_cons, Bool.and_eq_true, beq_iff_eq] at hwb
      exact absurd hwb.1 had
  have hWc1 := hW1 'c' _ (by decide) hWc
  have hWm1 := hW1 'm' _ (by decide) hWm
  -- step 2
  have h2 := (bodies_remove ['c', 'h', 'u', 'n', 'k'] (by decide) _ hWc1).2
  have hnone2 : ∀ b ∈ bodies (strings.ReplaceAll
      (strings.ReplaceAll p "/depot".toList "/depots".toList) "/chunk".toList []),
      ['c', 'h', 'u', 'n', 'k'].isPrefixOf b = false := by
    intro b hb
    cases hp : ['c', 'h', 'u', 'n', 'k'].isPrefixOf b with
    | false => rfl
    | true => exact absurd (hWc1 b (h2 b hb).1 hp) (h2 b hb).2
  have hWm2 : WholeBodies ['m', 'a', 'n', 'i', 'f', 'e', 's', 't'] (strings.ReplaceAll
      (strings.ReplaceAll p "/depot".toList "/depots".toList) "/chunk".toList []) :=
    fun b hb hwb => hWm1 b (h2 b hb).1 hwb
  have hkey2 : strings.Contains (strings.ReplaceAll
      (strings.ReplaceAll p "/depot".toList "/depots".toList) "/chunk".toList [])
      "/chunk".toList = false := by
    cases hc : strings.Contains (strings.ReplaceAll
      (strings.ReplaceAll p "/depot".toList "/depots".toList) "/chunk".toList [])
      "/chunk".toList with
    | false => rfl
    | true =>
      obtain ⟨b, hb, hwb⟩ := (Contains_iff_bodies ['c', 'h', 'u', 'n', 'k'] (by decide) _).mp hc
      rw [hnone2 b hb] at hwb
      exact absurd hwb (by simp)
  -- step 3
  have h3 := (bodies_remove ['m', 'a', 'n', 'i', 'f', 'e', 's', 't'] (by decide) _ hWm2).2
  have hkey4 : strings.Contains (manifestTrailingFive.ReplaceAllString (strings.ReplaceAll
      (strings.ReplaceAll (strings.ReplaceAll p "/depot".toList "/depots".toList)
        "/chunk".toList []) "/manifest".toList []) []) "/chunk".toList = false := by
    cases hc : strings.Contains (manifestTrailingFive.ReplaceAllString (strings.ReplaceAll
      (strings.ReplaceAll (strings.ReplaceAll p "/depot".toList "/depots".toList)
        "/chunk".toList []) "/manifest".toList []) []) "/chunk".toList with
    | false => rfl
    | true =>
      obtain ⟨b, hb, hwb⟩ := (Contains_iff_bodies ['c', 'h', 'u', 'n', 'k'] (by decide) _).mp hc
      rw [hnone2 b (h3 b ((bodies_strip _).2 b hb)).1] at hwb
      exact absurd hwb (by simp)
  unfold rewrite
  simp only []
  split
  · exact Contains_append_zip _ hkey4
  · exact hkey2

/-- The chunk path `/depot/1/chunk/ab` has the key `/depots/1/ab`, without `/chunk`. -/
theorem chunk_segment_removed_witness :
    strings.Contains (rewrite "/depot/1/chunk/ab".toList) "/chunk".toList = false :=
  chunk_segment_removed "/depot/1/chunk/ab".toList (by decide) (by decide)

/-! ## Manifest paths -/

/-- A text of digits and separators has no match of a pattern that continues
with a byte that is neither, so `ReplaceAll` leaves it as it is. -/
theorem ReplaceAll_numeric (X : Str) (x : Char) (o new : Str)
    (hX : ∀ c ∈ X, manifestTrailingFive.isDigit c = true ∨ c = '/')
    (hx : manifestTrailingFive.isDigit x = false) (hx2 : x ≠ '/') :
    strings.ReplaceAll X ('/' :: x :: o) new = X := by
  induction X with
  | nil => exact ReplaceAll_nil _ _
  | cons c X ih =>
    have ih2 := ih (fun y hy => hX y (by simp [hy]))
    by_cases hc : c = '/'
    · subst hc
      rw [ReplaceAll_slash, ih2]
      cases X with
      | nil => rfl
      | cons c2 X =>
        have : x ≠ c2 := by
          rintro rfl
          rcases hX x (by simp) with h | h
          · rw [h] at hx; exact absurd hx (by simp)
          · exact hx2 h
        simp [isPrefixOf_cons_cons, this]
    · rw [ReplaceAll_cons_ne c X _ new hc, ih2]

/-- The rewrite of a manifest path up to the regular expression: the depot
segment is pluralised and the manifest segment removed. -/
theorem rewrite_manifest (d0 m0 : Char) (d m T : Str)
    (hd : ∀ c ∈ d0 :: d, manifestTrailingFive.isDigit c = true)
    (hm : ∀ c ∈ m0 :: m, manifestTrailingFive.isDigit c = true)
    (hT : ∀ c ∈ T, manifestTrailingFive.isDigit c = true ∨ c = '/') :
    rewrite ("/depot/".toList ++ (d0 :: d) ++ "/manifest/".toList ++ (m0 :: m) ++ T)
      = manifestTrailingFive.ReplaceAllString
          ("/depots".toList ++ ('/' :: d0 :: d) ++ ('/' :: m0 :: m) ++ T) [] ++ ".zip".toList := by
  have hd0 : manifestTrailingFive.isDigit d0 = true := hd d0 (by simp)
  have hd' : ∀ c ∈ d, manifestTrailingFive.isDigit c = true := fun c hc => hd c (by simp [hc])
  have hX : ∀ c ∈ '/' :: (m0 :: m ++ T), manifestTrailingFive.isDigit c = true ∨ c = '/' := by
    intro c hc
    rcases List.mem_cons.mp hc with h | h
    · exact Or.inr h
    · rcases List.mem_append.mp h with h | h
      · exact Or.inl (hm c h)
      · exact hT c h
  -- step 1: `/depot` becomes `/depots`
  have h1 : strings.ReplaceAll
      ('/' :: (['d', 'e', 'p', 'o', 't'] ++ ('/' :: d0 :: (d ++
        ('/' :: 'm' :: 'a' :: 'n' :: 'i' :: 'f' :: 'e' :: 's' :: 't' :: '/' :: (m0 :: m ++ T))))))
      ('/' :: 'd' :: ['e', 'p', 'o', 't']) ['/', 'd', 'e', 'p', 'o', 't', 's']
      = '/' :: 'd' :: 'e' :: 'p' :: 'o' :: 't' :: 's' :: '/' :: d0 :: (d ++
        ('/' :: 'm' :: 'a' :: 'n' :: 'i' :: 'f' :: 'e' :: 's' :: 't' :: '/' :: (m0 :: m ++ T))) := by
    rw [ReplaceAll_match, ReplaceAll_slash_digit d0 'd' _ _ _ hd0 (by decide),
      ReplaceAll_cons_ne d0 _ _ _ (digit_ne_slash d0 hd0), ReplaceAll_digits d _ _ _ hd',
      ReplaceAll_slash _ _ _ (by simp [isPrefixOf_cons_cons]),
      ReplaceAll_cons_ne 'm' _ _ _ (by decide), ReplaceAll_cons_ne 'a' _ _ _ (by decide),
      ReplaceAll_cons_ne 'n' _ _ _ (by decide), ReplaceAll_cons_ne 'i' _ _ _ (by decide),
      ReplaceAll_cons_ne 'f' _ _ _ (by decide), ReplaceAll_cons_ne 'e' _ _ _ (by decide),
      ReplaceAll_cons_ne 's' _ _ _ (by decide), ReplaceAll_cons_ne 't' _ _ _ (by decide),
      ReplaceAll_numeric _ 'd' _ _ hX (by decide) (by decide)]
    rfl
  -- step 2: there is no `/chunk`
  have h2 : strings.ReplaceAll
      ('/' :: 'd' :: 'e' :: 'p' :: 'o' :: 't' :: 's' :: '/' :: d0 :: (d ++
        ('/' :: 'm' :: 'a' :: 'n' :: 'i' :: 'f' :: 'e' :: 's' :: 't' :: '/' :: (m0 :: m ++ T))))
      ('/' :: 'c' :: ['h', 'u', 'n', 'k']) []
      = '/' :: 'd' :: 'e' :: 'p' :: 'o' :: 't' :: 's' :: '/' :: d0 :: (d ++
        ('/' :: 'm' :: 'a' :: 'n' :: 'i' :: 'f' :: 'e' :: 's' :: 't' :: '/' :: (m0 :: m ++ T))) := by
    rw [ReplaceAll_slash _ _ _ (by simp [isPrefixOf_cons_cons]),
      ReplaceAll_cons_ne 'd' _ _ _ (by decide), ReplaceAll_cons_ne 'e' _ _ _ (by decide),
      ReplaceAll_cons_ne 'p' _ _ _ (by decide), ReplaceAll_cons_ne 'o' _ _ _ (by decide),
      ReplaceAll_cons_ne 't' _ _ _ (by decide), ReplaceAll_cons_ne 's' _ _ _ (by decide),
      ReplaceAll_slash_digit d0 'c' _ _ _ hd0 (by decide),
      ReplaceAll_cons_ne d0 _ _ _ (digit_ne_slash d0 hd0), ReplaceAll_digits d _ _ _ hd',
      ReplaceAll_slash _ _ _ (by simp [isPrefixOf_cons_cons]),
      ReplaceAll_cons_ne 'm' _ _ _ (by decide), ReplaceAll_cons_ne 'a' _ _ _ (by decide),
      ReplaceAll_cons_ne 'n' _ _ _ (by decide), ReplaceAll_cons_ne 'i' _ _ _ (by decide),
      ReplaceAll_cons_ne 'f' _ _ _ (by decide), ReplaceAll_cons_ne 'e' _ _ _ (by decide),
      ReplaceAll_cons_ne 's' _ _ _ (by decide), ReplaceAll_cons_ne 't' _ _ _ (by decide),
      ReplaceAll_numeric _ 'c' _ _ hX (by decide) (by decide)]
  -- step 3: the path contains `manifest`, and `/manifest` is removed
  have h3 : strings.Contains
      (['/', 'd', 'e', 'p', 'o', 't', 's', '/'] ++ ((d0 :: d) ++ (['/'] ++
        (['m', 'a', 'n', 'i', 'f', 'e', 's', 't'] ++ ('/' :: (m0 :: m ++ T))))))
      ['m', 'a', 'n', 'i', 'f', 'e', 's', 't'] = true :=
    Contains_append_left _ _ _ (Contains_append_left _ _ _ (Contains_append_left _ _ _
      (Contains_of_starts _ _)))
  have h4 : strings.ReplaceAll
      ('/' :: 'd' :: 'e' :: 'p' :: 'o' :: 't' :: 's' :: '/' :: d0 :: (d ++
        ('/' :: (['m', 'a', 'n', 'i', 'f', 'e', 's', 't'] ++ ('/' :: (m0 :: m ++ T))))))
      ('/' :: 'm' :: ['a', 'n', 'i', 'f', 'e', 's', 't']) []
      = '/' :: 'd' :: 'e' :: 'p' :: 'o' :: 't' :: 's' :: '/' :: d0 :: (d ++
        ('/' :: (m0 :: m ++ T))) := by
    rw [ReplaceAll_slash _ _ _ (by simp [isPrefixOf_cons_cons]),
      ReplaceAll_cons_ne 'd' _ _ _ (by decide), ReplaceAll_cons_ne 'e' _ _ _ (by decide),
      ReplaceAll_cons_ne 'p' _ _ _ (by decide), ReplaceAll_cons_ne 'o' _ _ _ (by decide),
      ReplaceAll_cons_ne 't' _ _ _ (by decide), ReplaceAll_cons_ne 's' _ _ _ (by decide),
      ReplaceAll_slash_digit d0 'm' _ _ _ hd0 (by decide),
      ReplaceAll_cons_ne d0 _ _ _ (digit_ne_slash d0 hd0), ReplaceAll_digits d _ _ _ hd',
      ReplaceAll_match, ReplaceAll_numeric _ 'm' _ _ hX (by decide) (by decide)]
    rfl
  have e0 : "/depot/".toList ++ (d0 :: d) ++ "/manifest/".toList ++ (m0 :: m) ++ T
      = '/' :: (['d', 'e', 'p', 'o', 't'] ++ ('/' :: d0 :: (d ++
        ('/' :: 'm' :: 'a' :: 'n' :: 'i' :: 'f' :: 'e' :: 's' :: 't' :: '/' :: (m0 :: m ++ T))))) := by
    simp
  have e1 : "/depots".toList ++ ('/' :: d0 :: d) ++ ('/' :: m0 :: m) ++ T
      = '/' :: 'd' :: 'e' :: 'p' :: 'o' :: 't' :: 's' :: '/' :: d0 :: (d ++
        ('/' :: (m0 :: m ++ T))) := by
    simp
  rw [e0, e1]
  unfold rewrite
  simp only []
  rw [show "/depot".toList = '/' :: 'd' :: ['e', 'p', 'o', 't'] from rfl,
    show "/depots".toList = ['/', 'd', 'e', 'p', 'o', 't', 's'] from rfl,
    show "/chunk".toList = '/' :: 'c' :: ['h', 'u', 'n', 'k'] from rfl,
    show "manifest".toList = ['m', 'a', 'n', 'i', 'f', 'e', 's', 't'] from rfl,
    show "/manifest".toList = '/' :: 'm' :: ['a', 'n', 'i', 'f', 'e', 's', 't'] from rfl,
    h1, h2]
  rw [if_pos (by simpa using h3)]
  rw [show ('/' :: 'd' :: 'e' :: 'p' :: 'o' :: 't' :: 's' :: '/' :: d0 :: (d ++
        ('/' :: 'm' :: 'a' :: 'n' :: 'i' :: 'f' :: 'e' :: 's' :: 't' :: '/' :: (m0 :: m ++ T))))
      = '/' :: 'd' :: 'e' :: 'p' :: 'o' :: 't' :: 's' :: '/' :: d0 :: (d ++
        ('/' :: (['m', 'a', 'n', 'i', 'f', 'e', 's', 't'] ++ ('/' :: (m0 :: m ++ T))))) from rfl,
    h4]


/-- The regular expression finds no match in `/depots/<digits>` when a
separator and a text with a further separator follow. -/
theorem strip_depots_head (d0 : Char) (d r : Str)
    (hd : ∀ c ∈ d0 :: d, manifestTrailingFive.isDigit c = true) (hr : '/' ∈ r) :
    manifestTrailingFive.ReplaceAllString
      ('/' :: 'd' :: 'e' :: 'p' :: 'o' :: 't' :: 's' :: '/' :: d0 :: (d ++ ('/' :: r))) []
      = '/' :: 'd' :: 'e' :: 'p' :: 'o' :: 't' :: 's' :: '/' :: d0 ::
          (d ++ manifestTrailingFive.ReplaceAllString ('/' :: r) []) := by
  have hd0 : manifestTrailingFive.isDigit d0 = true := hd d0 (by simp)
  have hd' : ∀ c ∈ d, manifestTrailingFive.isDigit c = true := fun c hc => hd c (by simp [hc])
  rw [ReplaceAllString_nomatch '/' _ _ (by simp [manifestTrailingFive.matchesHere]),
    ReplaceAllString_cons_ne 'd' _ _ (by decide), ReplaceAllString_cons_ne 'e' _ _ (by decide),
    ReplaceAllString_cons_ne 'p' _ _ (by decide), ReplaceAllString_cons_ne 'o' _ _ (by decide),
    ReplaceAllString_cons_ne 't' _ _ (by decide), ReplaceAllString_cons_ne 's' _ _ (by decide),
    ReplaceAllString_nomatch '/' (d0 :: (d ++ '/' :: r)) _
      (matchesHere_slash_later (d0 :: d) r (by simp) hd hr),
    ReplaceAllString_cons_ne d0 _ _ (digit_ne_slash d0 hd0), ReplaceAllString_digits d _ _ hd']

/-- C4 as stated fails: with manifest id `5` the one-segment form
`/depot/730/manifest/5/5` loses the manifest id as well and is mapped to
`/depots/730.zip`, not to `/depots/730/5.zip`. -/
theorem manifest_id_five_collapses_further :
    rewrite ("/depot/".toList ++ "730".toList ++ "/manifest/".toList ++ "5".toList ++ "/5".toList)
      = "/depots/730.zip".toList ∧
    rewrite ("/depot/".toList ++ "730".toList ++ "/manifest/".toList ++ "5".toList ++ "/5".toList)
      ≠ "/depots/".toList ++ "730".toList ++ "/".toList ++ "5".toList ++ ".zip".toList := by
  decide

/-- C4 (amended): for depot id `d`, manifest id `m` and trailing number `n`,
all non-empty strings of decimal digits, `/depot/d/manifest/m/5/n` is mapped
to the cache key `/depots/d/m.zip`, and so is `/depot/d/manifest/m/5` when
`m` is not the single digit `5`; `/depot/d/manifest/5/5` is mapped to
`/depots/d.zip`. -/
theorem manifest_path_collapse (d m n : Str)
    (hd : d ≠ []) (hdd : ∀ c ∈ d, manifestTrailingFive.isDigit c = true)
    (hm : m ≠ []) (hmd : ∀ c ∈ m, manifestTrailingFive.isDigit c = true)
    (hn : n ≠ []) (hnd : ∀ c ∈ n, manifestTrailingFive.isDigit c = true) :
    (m ≠ "5".toList →
      rewrite ("/depot/".toList ++ d ++ "/manifest/".toList ++ m ++ "/5".toList)
        = "/depots/".toList ++ d ++ "/".toList ++ m ++ ".zip".toList) ∧
    rewrite ("/depot/".toList ++ d ++ "/manifest/".toList ++ m ++ "/5/".toList ++ n)
      = "/depots/".toList ++ d ++ "/".toList ++ m ++ ".zip".toList ∧
    (m = "5".toList →
      rewrite ("/depot/".toList ++ d ++ "/manifest/".toList ++ m ++ "/5".toList)
        = "/depots/".toList ++ d ++ ".zip".toList) := by
  obtain ⟨d0, d, rfl⟩ := List.exists_cons_of_ne_nil hd
  obtain ⟨m0, m, rfl⟩ := List.exists_cons_of_ne_nil hm
  obtain ⟨n0, n, rfl⟩ := List.exists_cons_of_ne_nil hn
  have e1 : ∀ T : Str, "/depots".toList ++ ('/' :: d0 :: d) ++ ('/' :: m0 :: m) ++ T
      = '/' :: 'd' :: 'e' :: 'p' :: 'o' :: 't' :: 's' :: '/' :: d0 :: (d ++
        ('/' :: (m0 :: m ++ T))) := by
    intro T; simp
  refine ⟨?_, ?_, ?_⟩
  · intro h5
    rw [rewrite_manifest d0 m0 d m "/5".toList hdd hmd (by decide), e1,
      strip_depots_head d0 d _ hdd (by simp),
      ReplaceAllString_nomatch '/' _ _ (matchesHere_digits_ne_five (m0 :: m) _ (by simp) hmd h5),
      ReplaceAllString_digits (m0 :: m) _ _ hmd, ReplaceAllString_match "/5".toList [] (by decide)]
    simp
  · have hT : ∀ c ∈ "/5/".toList ++ (n0 :: n), manifestTrailingFive.isDigit c = true ∨ c = '/' := by
      intro c hc
      rcases List.mem_append.mp hc with h | h
      · have hlit : ∀ x ∈ "/5/".toList, manifestTrailingFive.isDigit x = true ∨ x = '/' := by
          decide
        exact hlit c h
      · exact Or.inl (hnd c h)
    have hmatch : manifestTrailingFive.matchesHere ("/5/".toList ++ (n0 :: n)) = true := by
      show manifestTrailingFive.matchesHere ('/' :: '5' :: '/' :: n0 :: n) = true
      simp only [manifestTrailingFive.matchesHere, List.all_eq_true]
      exact hnd
    rw [List.append_assoc _ "/5/".toList,
      rewrite_manifest d0 m0 d m ("/5/".toList ++ (n0 :: n)) hdd hmd hT, e1,
      strip_depots_head d0 d _ hdd (by simp),
      ReplaceAllString_nomatch '/' _ _
        (by
          have := matchesHere_slash_later (m0 :: m) ('5' :: '/' :: n0 :: n) (by simp) hmd (by simp)
          simpa using this),
      ReplaceAllString_digits (m0 :: m) _ _ hmd, ReplaceAllString_match _ [] hmatch]
    simp
  · intro h5
    have hm0' : m0 = '5' := by simpa using (List.cons.inj h5).1
    have hmn : m = [] := by simpa using (List.cons.inj h5).2
    subst hm0' hmn
    rw [rewrite_manifest d0 '5' d [] "/5".toList hdd hmd (by decide), e1,
      strip_depots_head d0 d _ hdd (by simp),
      ReplaceAllString_match ('/' :: (['5'] ++ "/5".toList)) [] (by decide)]
    simp

/-- The two manifest paths of depot 730 and manifest 123456 have the same key. -/
theorem manifest_path_collapse_witness :
    ("123456".toList ≠ "5".toList →
      rewrite ("/depot/".toList ++ "730".toList ++ "/manifest/".toList ++ "123456".toList
          ++ "/5".toList)
        = "/depots/".toList ++ "730".toList ++ "/".toList ++ "123456".toList ++ ".zip".toList) ∧
    rewrite ("/depot/".toList ++ "730".toList ++ "/manifest/".toList ++ "123456".toList
        ++ "/5/".toList ++ "42".toList)
      = "/depots/".toList ++ "730".toList ++ "/".toList ++ "123456".toList ++ ".zip".toList ∧
    ("123456".toList = "5".toList →
      rewrite ("/depot/".toList ++ "730".toList ++ "/manifest/".toList ++ "123456".toList
          ++ "/5".toList)
        = "/depots/".toList ++ "730".toList ++ ".zip".toList) :=
  manifest_path_collapse "730".toList "123456".toList "42".toList (by decide) (by decide)
    (by decide) (by decide) (by decide) (by decide)

/-! ## The cleaned path stays below the cache root -/

theorem components_ne_nil (s : Str) : components s ≠ [] := by
  cases s with
  | nil => simp [components]
  | cons c t =>
    unfold components
    split
    · simp
    · cases h : components t with
      | nil => simp
      | cons a l => simp

theorem components_cons (c : Char) (t : Str) (hc : c ≠ '/') :
    components (c :: t) =
      match components t with
      | [] => [[c]]
      | first :: others => (c :: first) :: others := by
  simp [components, hc]

/-- Splitting at a separator splits the list of components. -/
theorem components_append_slash (a b : Str) :
    components (a ++ '/' :: b) = components a ++ components b := by
  induction a with
  | nil => simp [components]
  | cons c a ih =>
    by_cases hc : c = '/'
    · simp [components, hc, ih]
    · rw [List.cons_append, components_cons c _ hc, components_cons c _ hc, ih]
      cases h : components a with
      | nil => exact absurd h (components_ne_nil a)
      | cons x l => simp

/-- A string without separator is its only component. -/
theorem components_of_no_slash (e : Str) (h : '/' ∉ e) : components e = [e] := by
  induction e with
  | nil => simp [components]
  | cons c e ih =>
    have hc : c ≠ '/' := fun hc => h (by simp [hc])
    have he : '/' ∉ e := fun he => h (by simp [he])
    simp [components, hc, ih he]

theorem Confined.ne_nil {out : Str} (h : Confined out) : out ≠ [] := by
  intro h0
  subst h0
  simp [Confined] at h

theorem confined_root : Confined ['/'] := by
  simp [Confined, components]

theorem copyElem_eq (s out : Str) :
    filepath.copyElem s out
      = (s.dropWhile (fun c => c ≠ '/'), (s.takeWhile (fun c => c ≠ '/')).reverse ++ out) := by
  induction s generalizing out with
  | nil => simp [filepath.copyElem]
  | cons c t ih =>
    by_cases hc : c = '/'
    · simp [filepath.copyElem, hc]
    · simp [filepath.copyElem, hc, ih, List.takeWhile_cons, List.dropWhile_cons]

/-- What the backtracking loop drops is the text from a separator on, unless
it stops at the leading separator. -/
theorem backtrack_split (out : Str) : ∀ last : Char, out ≠ [] →
    ∃ d, (last :: out).reverse = (filepath.backtrack 1 out last).reverse ++ d ∧
      filepath.backtrack 1 out last ≠ [] ∧
      ((filepath.backtrack 1 out last).length = 1 ∨ d.head? = some '/') := by
  induction out with
  | nil => intro last h; exact absurd rfl h
  | cons c out ih =>
    intro last _
    unfold filepath.backtrack
    split
    · next hcond =>
      have hne : out ≠ [] := by
        intro h0
        subst h0
        simp at hcond
      obtain ⟨d, hd, hbt, hor⟩ := ih c hne
      refine ⟨d ++ [last], ?_, hbt, ?_⟩
      · rw [List.reverse_cons, hd, List.append_assoc]
      · rcases hor with h1 | h2
        · exact Or.inl h1
        · right
          cases d with
          | nil => simp at h2
          | cons x d => simpa using h2
    · next hcond =>
      refine ⟨[last], by simp, by simp, ?_⟩
      by_cases hl : last = '/'
      · right; simp [hl]
      · left
        have : ¬ 1 < (c :: out).length := fun h => hcond ⟨h, hl⟩
        simp at this
        simp [this]

theorem backtrack_confined (out : Str) (last : Char) (hne : out ≠ [])
    (h : Confined (last :: out)) : Confined (filepath.backtrack 1 out last) := by
  obtain ⟨d, hd, hbt, hor⟩ := backtrack_split out last hne
  obtain ⟨hhead, hdd⟩ := h
  have hrev : (filepath.backtrack 1 out last).reverse ≠ [] := by simpa using hbt
  have hhead2 : (filepath.backtrack 1 out last).reverse.head? = some '/' := by
    rw [hd] at hhead
    cases hb : (filepath.backtrack 1 out last).reverse with
    | nil => exact absurd hb hrev
    | cons x l => rw [hb] at hhead; simpa using hhead
  refine ⟨hhead2, ?_⟩
  rcases hor with h1 | h2
  · have : (filepath.backtrack 1 out last).reverse = ['/'] := by
      cases hb : (filepath.backtrack 1 out last).reverse with
      | nil => exact absurd hb hrev
      | cons x l =>
        rw [hb] at hhead2
        have hlen : ((filepath.backtrack 1 out last).reverse).length = 1 := by simpa using h1
        rw [hb] at hlen
        simp at hlen hhead2
        simp [hlen, hhead2]
    rw [this]
    simp [components]
  · cases d with
    | nil => simp at h2
    | cons x d =>
      simp at h2
      subst h2
      rw [hd, components_append_slash] at hdd
      intro hmem
      exact hdd (List.mem_append_left _ hmem)

/-- Appending a real path element keeps the buffer confined. -/
theorem append_elem_confined (out elem : Str) (h : Confined out) (hslash : '/' ∉ elem)
    (hdd : elem ≠ ['.', '.']) :
    Confined (elem.reverse ++ (if (true && out.length != 1) || (!true && out.length != 0)
      then '/' :: out else out)) := by
  obtain ⟨hhead, hno⟩ := h
  by_cases hlen : out.length = 1
  · have hout : out = ['/'] := by
      match out, hlen, hhead with
      | [x], _, hh => simpa using hh
    subst hout
    simp [Confined, components, components_of_no_slash elem hslash]
    exact fun h => hdd h.symm
  · have hne : out.reverse ≠ [] := by
      intro h0
      rw [h0] at hhead
      simp at hhead
    simp only [Bool.true_and, bne_iff_ne, ne_eq, hlen, not_false_eq_true, decide_True,
      Bool.not_true, Bool.false_and, Bool.or_false, if_true]
    refine ⟨?_, ?_⟩
    · simp only [List.reverse_append, List.reverse_cons, List.reverse_reverse, List.append_assoc]
      cases ho : out.reverse with
      | nil => exact absurd ho hne
      | cons x l => rw [ho] at hhead; simpa using hhead
    · simp only [List.reverse_append, List.reverse_cons, List.reverse_reverse, List.append_assoc,
        List.singleton_append, components_append_slash, components_of_no_slash elem hslash]
      intro hmem
      rcases List.mem_append.mp hmem with h1 | h1
      · exact hno h1
      · simp at h1
        exact hdd h1.symm

theorem takeWhile_no_slash (s : Str) : '/' ∉ s.takeWhile (fun c => c ≠ '/') := by
  intro h
  have := List.mem_takeWhile_imp h
  simp at this

/-- The loop of `Clean` on a rooted path keeps the output buffer confined. -/
theorem cleanLoop_confined (fuel : Nat) : ∀ (rest out : Str), Confined out →
    Confined (filepath.cleanLoop true fuel rest out 1) := by
  induction fuel with
  | zero => intro rest out h; simpa [filepath.cleanLoop] using h
  | succ fuel ih =>
    intro rest out h
    cases rest with
    | nil => simpa [filepath.cleanLoop] using h
    | cons c t =>
      unfold filepath.cleanLoop
      split
      · exact ih _ _ h
      · split
        · exact ih _ _ h
        · split
          · next hdots =>
            split
            · next hlen =>
              cases out with
              | nil => exact ih _ _ h
              | cons last out1 =>
                have hne : out1 ≠ [] := by
                  intro h0
                  subst h0
                  simp at hlen
                exact ih _ _ (backtrack_confined out1 last hne h)
            · simpa using ih _ _ h
          · next hnotslash _ hnotdots =>
            simp only [copyElem_eq]
            apply ih
            apply append_elem_confined _ _ h (takeWhile_no_slash _)
            intro heq
            apply hnotdots
            have hc : c ≠ '/' := hnotslash
            simp only [List.takeWhile_cons, hc, ne_eq, not_false_eq_true, decide_True, if_true,
              List.cons.injEq] at heq
            obtain ⟨hc1, ht⟩ := heq
            refine ⟨hc1.symm ▸ rfl, ?_⟩
            cases t with
            | nil => simp at ht
            | cons c2 t2 =>
              by_cases hc2 : c2 = '/'
              · simp [List.takeWhile_cons, hc2] at ht
              · simp only [List.takeWhile_cons, hc2, ne_eq, not_false_eq_true, decide_True,
                  if_true, List.cons.injEq] at ht
                obtain ⟨hc3, ht2⟩ := ht
                refine ⟨by simp [hc3], ?_⟩
                cases t2 with
                | nil => left; rfl
                | cons c3 t3 =>
                  right
                  by_cases hc4 : c3 = '/'
                  · simp [hc4]
                  · simp [List.takeWhile_cons, hc4] at ht2

/-- `filepath.Join("/", p)` is the cleaned form of `//p`. -/
theorem join_root (p : Str) :
    filepath.Join [['/'], p] = (filepath.cleanLoop true (p.length + 2) ('/' :: p) ['/'] 1).reverse := by
  have hc := cleanLoop_confined (p.length + 2) ('/' :: p) ['/'] confined_root
  have hne := hc.ne_nil
  simp [filepath.Join, strings.Join, filepath.Clean, hne]

/-- C1 (the cache path cannot leave the cache root): the cache path is the
working directory followed by `filepath.Join("/", urlPath)`, and that second
part starts with `/` and has no `..` among its `/`-separated components. -/
theorem cache_path_confined (cwd p : Str) :
    cachePath cwd p = cwd ++ filepath.Join [['/'], rewrite p] ∧
    (filepath.Join [['/'], rewrite p]).head? = some '/' ∧
    ∀ c ∈ components (filepath.Join [['/'], rewrite p]), c ≠ "..".toList := by
  have hc := cleanLoop_confined ((rewrite p).length + 2) ('/' :: rewrite p) ['/'] confined_root
  refine ⟨rfl, ?_, ?_⟩
  · rw [join_root]; exact hc.1
  · rw [join_root]
    intro c hmem heq
    subst heq
    exact hc.2 hmem

/-- A request path that climbs with `..` is cut off at the cache root. -/
theorem cache_path_of_climbing_request :
    cachePath "/srv".toList "/depot/../../../etc/passwd".toList = "/srv/etc/passwd".toList := by
  decide

/-! ## The iteration bound of `Clean` is never reached -/

theorem copyElem_length (s out : Str) : (filepath.copyElem s out).1.length ≤ s.length := by
  induction s generalizing out with
  | nil => simp [filepath.copyElem]
  | cons c t ih =>
    unfold filepath.copyElem
    split
    · simp
    · exact Nat.le_trans (ih _) (by simp)

/-- Any two iteration bounds that are at least the length of the remaining
path give the same result: the loop of `Clean` ends because the path is
consumed, not because the bound is reached. -/
theorem cleanLoop_fuel (rooted : Bool) (f1 : Nat) : ∀ (f2 : Nat) (rest out : Str) (dotdot : Nat),
    rest.length ≤ f1 → rest.length ≤ f2 →
    filepath.cleanLoop rooted f1 rest out dotdot = filepath.cleanLoop rooted f2 rest out dotdot := by
  induction f1 with
  | zero =>
    intro f2 rest out dotdot h1 _
    have hnil : rest = [] := List.length_eq_zero.mp (Nat.le_zero.mp h1)
    subst hnil
    cases f2 <;> simp [filepath.cleanLoop]
  | succ n ih =>
    intro f2 rest out dotdot h1 h2
    cases rest with
    | nil => cases f2 <;> simp [filepath.cleanLoop]
    | cons c t =>
      cases f2 with
      | zero => simp at h2
      | succ m =>
        have ht1 : t.length ≤ n := by simpa using h1
        have ht2 : t.length ≤ m := by simpa using h2
        have htail1 : t.tail.length ≤ n := Nat.le_trans (by simp) ht1
        have htail2 : t.tail.length ≤ m := Nat.le_trans (by simp) ht2
        unfold filepath.cleanLoop
        split
        · exact ih m t out dotdot ht1 ht2
        · split
          · exact ih m t out dotdot ht1 ht2
          · split
            · split
              · cases out with
                | nil => exact ih m _ _ _ htail1 htail2
                | cons last out1 => exact ih m _ _ _ htail1 htail2
              · split
                · exact ih m _ _ _ htail1 htail2
                · exact ih m _ _ _ htail1 htail2
            · next hc _ _ =>
              have hlen : (filepath.copyElem (c :: t) (if (rooted && out.length != 1) ||
                  (!rooted && out.length != 0) then '/' :: out else out)).1.length ≤ t.length := by
                have hc' : c ≠ '/' := hc
                simp only [filepath.copyElem, hc', if_false]
                exact copyElem_length _ _
              exact ih m _ _ _ (Nat.le_trans hlen ht1) (Nat.le_trans hlen ht2)

/-- The bound `Clean` passes to its loop, the length of the path, is enough:
a larger bound gives the same output buffer. -/
theorem Clean_bound_suffices (path : Str) (more : Nat) :
    filepath.cleanLoop true path.length path.tail ['/'] 1
      = filepath.cleanLoop true (path.length + more) path.tail ['/'] 1 ∧
    filepath.cleanLoop false path.length path [] 0
      = filepath.cleanLoop false (path.length + more) path [] 0 :=
  ⟨cleanLoop_fuel true _ _ _ _ _ (by simp) (by simp; omega),
    cleanLoop_fuel false _ _ _ _ _ (Nat.le_refl _) (Nat.le_add_right _ _)⟩

/-! ## Properties of the handler's control flow -/

/-- C7 (host validation): a request whose host is empty or `127.0.0.1` is
answered with status 400 and the body `Missing host header.\n`; the handler
performs no operation on its environment (no working-directory lookup, no
open, mkdir or create, no origin request), leaves the disk as it was and
does not panic. -/
theorem host_validation (w : World) (r : Request)
    (h : r.Host = [] ∨ r.Host = "127.0.0.1".toList) :
    (handler w r).rw.code = 400 ∧
    (handler w r).rw.body = "Missing host header.\n".toList ∧
    (handler w r).trace = [] ∧ (handler w r).fs = w.fs ∧
    (handler w r).panicked = false := by
  unfold handler
  rw [if_pos h]
  simp [ResponseWriter.WriteHeader, ResponseWriter.Write, ResponseWriter.code,
    ResponseWriter.bodyAllowedForStatus]

/-- A request with the loopback host is rejected without touching the environment. -/
theorem host_validation_witness :
    (handler exampleWorld { Host := "127.0.0.1".toList, Path := "/depot/1/chunk/ab".toList }).rw.code = 400 ∧
    (handler exampleWorld { Host := "127.0.0.1".toList, Path := "/depot/1/chunk/ab".toList }).rw.body
      = "Missing host header.\n".toList ∧
    (handler exampleWorld { Host := "127.0.0.1".toList, Path := "/depot/1/chunk/ab".toList }).trace = [] ∧
    (handler exampleWorld { Host := "127.0.0.1".toList, Path := "/depot/1/chunk/ab".toList }).fs
      = exampleWorld.fs ∧
    (handler exampleWorld { Host := "127.0.0.1".toList, Path := "/depot/1/chunk/ab".toList }).panicked
      = false :=
  host_validation exampleWorld { Host := "127.0.0.1".toList, Path := "/depot/1/chunk/ab".toList }
    (Or.inr rfl)

/-- C8 as stated fails: a request for `/favicon.ico` with an empty host is
answered by the host check, with status 400 and a non-empty body. -/
theorem favicon_empty_host_is_400 :
    (handler exampleWorld { Host := [], Path := "/favicon.ico".toList }).rw.code = 400 ∧
    ¬ ((handler exampleWorld { Host := [], Path := "/favicon.ico".toList }).rw.code = 404 ∧
       (handler exampleWorld { Host := [], Path := "/favicon.ico".toList }).rw.body = []) := by
  decide

/-- C8 (amended): a request for `/favicon.ico` whose host is neither empty nor
`127.0.0.1` is answered with status 404 and an empty body, without any
operation on the environment and without panic. -/
theorem favicon_rejected (w : World) (r : Request)
    (hempty : r.Host ≠ []) (hloop : r.Host ≠ "127.0.0.1".toList)
    (hpath : r.Path = "/favicon.ico".toList) :
    (handler w r).rw.code = 404 ∧ (handler w r).rw.body = [] ∧
    (handler w r).trace = [] ∧ (handler w r).fs = w.fs ∧
    (handler w r).panicked = false := by
  unfold handler
  rw [if_neg (not_or.mpr ⟨hempty, hloop⟩), if_pos hpath]
  simp [ResponseWriter.WriteHeader, ResponseWriter.code]

/-- A favicon request with a real host is answered 404. -/
theorem favicon_rejected_witness :
    (handler exampleWorld { Host := "cdn.example".toList, Path := "/favicon.ico".toList }).rw.code = 404 ∧
    (handler exampleWorld { Host := "cdn.example".toList, Path := "/favicon.ico".toList }).rw.body = [] ∧
    (handler exampleWorld { Host := "cdn.example".toList, Path := "/favicon.ico".toList }).trace = [] ∧
    (handler exampleWorld { Host := "cdn.example".toList, Path := "/favicon.ico".toList }).fs
      = exampleWorld.fs ∧
    (handler exampleWorld { Host := "cdn.example".toList, Path := "/favicon.ico".toList }).panicked
      = false :=
  favicon_rejected exampleWorld { Host := "cdn.example".toList, Path := "/favicon.ico".toList }
    (by decide) (by decide) rfl

/-- The handler on a request that passes the host and favicon checks, once
the working directory is known. -/
theorem handler_accepted (w : World) (r : Request) (cwd : Str)
    (hempty : r.Host ≠ []) (hloop : r.Host ≠ "127.0.0.1".toList)
    (hpath : r.Path ≠ "/favicon.ico".toList) (hcwd : w.cwd = some cwd) :
    handler w r =
      match os.Open w.fs (cachePath cwd r.Path) with
      | some content =>
        { rw := ioCopy { status := none, interim := [], body := [] } content, fs := w.fs,
          trace := [Event.getwd, Event.openFile (cachePath cwd r.Path)], panicked := false }
      | none =>
        match http.Get w ("http://".toList ++ r.Host ++ r.Path) with
        | none =>
          { rw := { status := some 500, interim := [], body := [] }, fs := w.fs,
            trace := [Event.getwd, Event.openFile (cachePath cwd r.Path),
              Event.httpGet ("http://".toList ++ r.Host ++ r.Path)],
            panicked := false }
        | some resp =>
          match ResponseWriter.WriteHeader { status := none, interim := [], body := [] }
              resp.StatusCode with
          | none =>
            { rw := { status := none, interim := [], body := [] }, fs := w.fs,
              trace := [Event.getwd, Event.openFile (cachePath cwd r.Path),
                Event.httpGet ("http://".toList ++ r.Host ++ r.Path)],
              panicked := true }
          | some rw =>
            if resp.StatusCode ≠ 200 then
              { rw := rw, fs := w.fs,
                trace := [Event.getwd, Event.openFile (cachePath cwd r.Path),
                  Event.httpGet ("http://".toList ++ r.Host ++ r.Path)],
                panicked := false }
            else
              match os.MkdirAll w w.fs (filepath.Dir (cachePath cwd r.Path)) with
              | none =>
                { rw := ioCopy rw resp.Body, fs := w.fs,
                  trace := [Event.getwd, Event.openFile (cachePath cwd r.Path),
                    Event.httpGet ("http://".toList ++ r.Host ++ r.Path),
                    Event.mkdirAll (filepath.Dir (cachePath cwd r.Path))],
                  panicked := false }
              | some fs1 =>
                match os.Create w fs1 (cachePath cwd r.Path) with
                | none =>
                  { rw := ioCopy rw resp.Body, fs := fs1,
                    trace := [Event.getwd, Event.openFile (cachePath cwd r.Path),
                      Event.httpGet ("http://".toList ++ r.Host ++ r.Path),
                      Event.mkdirAll (filepath.Dir (cachePath cwd r.Path)),
                      Event.create (cachePath cwd r.Path)],
                    panicked := false }
                | some fs2 =>
                  { rw := ioCopy rw resp.Body,
                    fs := os.writeFile fs2 (cachePath cwd r.Path) resp.Body,
                    trace := [Event.getwd, Event.openFile (cachePath cwd r.Path),
                      Event.httpGet ("http://".toList ++ r.Host ++ r.Path),
                      Event.mkdirAll (filepath.Dir (cachePath cwd r.Path)),
                      Event.create (cachePath cwd r.Path),
                      Event.write (cachePath cwd r.Path) resp.Body],
                    panicked := false } := by
  unfold handler
  rw [if_neg (not_or.mpr ⟨hempty, hloop⟩), if_neg hpath]
  simp only [hcwd]
  rfl

/-- Body and status after `io.Copy` onto a response without header. -/
theorem ioCopy_fresh (data : Str) :
    (ioCopy { status := none, interim := [], body := [] } data).body = data ∧
    (ioCopy { status := none, interim := [], body := [] } data).code = 200 := by
  unfold ioCopy
  split
  · next h => simp [h, ResponseWriter.code]
  · simp [ResponseWriter.Write, ResponseWriter.code, ResponseWriter.bodyAllowedForStatus]

/-- Body and status after `io.Copy` onto a response with header 200. -/
theorem ioCopy_ok (data : Str) :
    (ioCopy { status := some 200, interim := [], body := [] } data).body = data ∧
    (ioCopy { status := some 200, interim := [], body := [] } data).code = 200 := by
  unfold ioCopy
  split
  · next h => simp [h, ResponseWriter.code]
  · simp [ResponseWriter.Write, ResponseWriter.code, ResponseWriter.bodyAllowedForStatus]

/-- `WriteHeader` with a code that net/http takes as the status of the
response: 101, or a code from 200 to 999. -/
theorem WriteHeader_final (code : Nat) (h : code = 101 ∨ (200 ≤ code ∧ code ≤ 999)) :
    ResponseWriter.WriteHeader { status := none, interim := [], body := [] } code
      = some { status := some code, interim := [], body := [] } := by
  unfold ResponseWriter.WriteHeader
  have h1 : ¬ (code < 100 ∨ 999 < code) := by omega
  have h2 : ¬ (code ≤ 199 ∧ code ≠ 101) := by omega
  simp only [h1, h2, if_false]

/-- `WriteHeader` sends a 1xx code other than 101 as an interim status line
and leaves the header unwritten, so that the response ends with the default
status 200. -/
theorem WriteHeader_interim (code : Nat) (h : 100 ≤ code ∧ code ≤ 199 ∧ code ≠ 101) :
    ResponseWriter.WriteHeader { status := none, interim := [], body := [] } code
      = some { status := none, interim := [code], body := [] } := by
  unfold ResponseWriter.WriteHeader
  have h1 : ¬ (code < 100 ∨ 999 < code) := by omega
  have h2 : code ≤ 199 ∧ code ≠ 101 := ⟨h.2.1, h.2.2⟩
  rw [if_neg h1, if_pos h2]
  rfl

/-- `WriteHeader` panics on a code below 100 or above 999. -/
theorem WriteHeader_panics (code : Nat) (h : code < 100 ∨ 999 < code) :
    ResponseWriter.WriteHeader { status := none, interim := [], body := [] } code = none := by
  unfold ResponseWriter.WriteHeader
  simp only [h, if_true]

/-- A response that is no redirect with a `Location` is what `http.Get`
returns. -/
theorem Get_of_unfollowed (w : World) (url : Str) (resp : Response)
    (horigin : w.origin url = some resp)
    (hstay : http.shouldRedirect resp.StatusCode = false ∨
      resp.Location = LocationHeader.absent) :
    http.Get w url = some resp := by
  unfold http.Get http.clientDo
  simp only [horigin]
  rcases hstay with h | h
  · simp [h]
  · simp [h]

/-- After a successful `os.Create` and a write of `data`, opening the file
yields `data`. -/
theorem open_after_create_write (w : World) (fs1 fs2 : FS) (name data : Str)
    (hcreate : os.Create w fs1 name = some fs2) :
    os.writeFile fs2 name data name = some (Node.file data) ∧
    os.Open (os.writeFile fs2 name data) name = some data := by
  unfold os.Create at hcreate
  split at hcreate
  · simp at hcreate
  · have h2 : fs2 name = some (Node.file []) := by
      simp only [Option.some.injEq] at hcreate
      rw [← hcreate]
      simp
    simp [os.writeFile, os.Open, h2]

/-- The handler on a miss when `http.Get` returns a response with status
200 and directory creation and file creation succeed. -/
theorem handler_fetch (w : World) (r : Request) (cwd : Str) (resp : Response) (fs1 fs2 : FS)
    (hempty : r.Host ≠ []) (hloop : r.Host ≠ "127.0.0.1".toList)
    (hpath : r.Path ≠ "/favicon.ico".toList) (hcwd : w.cwd = some cwd)
    (hmiss : os.Open w.fs (cachePath cwd r.Path) = none)
    (hget : http.Get w ("http://".toList ++ r.Host ++ r.Path) = some resp)
    (hok : resp.StatusCode = 200)
    (hmkdir : os.MkdirAll w w.fs (filepath.Dir (cachePath cwd r.Path)) = some fs1)
    (hcreate : os.Create w fs1 (cachePath cwd r.Path) = some fs2) :
    handler w r =
      { rw := ioCopy { status := some 200, interim := [], body := [] } resp.Body,
        fs := os.writeFile fs2 (cachePath cwd r.Path) resp.Body,
        trace := [Event.getwd, Event.openFile (cachePath cwd r.Path),
          Event.httpGet ("http://".toList ++ r.Host ++ r.Path),
          Event.mkdirAll (filepath.Dir (cachePath cwd r.Path)),
          Event.create (cachePath cwd r.Path),
          Event.write (cachePath cwd r.Path) resp.Body],
        panicked := false } := by
  rw [handler_accepted w r cwd hempty hloop hpath hcwd]
  simp only [hmiss, hget, hok, WriteHeader_final 200 (Or.inr (by omega)), ne_eq,
    not_true_eq_false, if_false, hmkdir, hcreate]

/-- C2 (cache hit): for a request that passes the host and favicon checks,
if the translated cache path can be opened and reading it yields `content`,
the response is status 200 with body exactly `content`, the handler makes no
origin request and performs no mkdir, create or write, the disk is
unchanged, and the handler does not panic. -/
theorem cache_hit (w : World) (r : Request) (cwd content : Str)
    (hempty : r.Host ≠ []) (hloop : r.Host ≠ "127.0.0.1".toList)
    (hpath : r.Path ≠ "/favicon.ico".toList) (hcwd : w.cwd = some cwd)
    (hopen : os.Open w.fs (cachePath cwd r.Path) = some content) :
    (handler w r).rw.body = content ∧ (handler w r).rw.code = 200 ∧
    (∀ e ∈ (handler w r).trace, e.isOrigin = false ∧ e.isMutation = false) ∧
    (handler w r).fs = w.fs ∧ (handler w r).panicked = false := by
  rw [handler_accepted w r cwd hempty hloop hpath hcwd]
  simp only [hopen]
  refine ⟨(ioCopy_fresh content).1, (ioCopy_fresh content).2, ?_, ?_⟩
  · intro e he
    simp only [List.mem_cons, List.mem_singleton, List.not_mem_nil, or_false] at he
    rcases he with rfl | rfl <;> exact ⟨rfl, rfl⟩
  · trivial

/-- The cached chunk of `cachedWorld` is served although the origin is unreachable. -/
theorem cache_hit_witness :
    (handler cachedWorld chunkRequest).rw.body = "xyz".toList ∧
    (handler cachedWorld chunkRequest).rw.code = 200 ∧
    (∀ e ∈ (handler cachedWorld chunkRequest).trace, e.isOrigin = false ∧ e.isMutation = false) ∧
    (handler cachedWorld chunkRequest).fs = cachedWorld.fs ∧
    (handler cachedWorld chunkRequest).panicked = false :=
  cache_hit cachedWorld chunkRequest "/srv".toList "xyz".toList (by decide) (by decide)
    (by decide) rfl (by decide)

/-- C3 (write-through on miss): for a request that passes the host and favicon
checks and whose translated cache path cannot be opened, if the origin answers
status 200 with body `B` and directory creation and file creation succeed,
the response is status 200 with body `B`, afterwards the file at the
translated cache path holds exactly `B`, and the handler does not panic. -/
theorem write_through_on_miss (w : World) (r : Request) (cwd B : Str) (loc : LocationHeader)
    (fs1 fs2 : FS)
    (hempty : r.Host ≠ []) (hloop : r.Host ≠ "127.0.0.1".toList)
    (hpath : r.Path ≠ "/favicon.ico".toList) (hcwd : w.cwd = some cwd)
    (hmiss : os.Open w.fs (cachePath cwd r.Path) = none)
    (horigin : w.origin ("http://".toList ++ r.Host ++ r.Path)
      = some { StatusCode := 200, Location := loc, Body := B })
    (hmkdir : os.MkdirAll w w.fs (filepath.Dir (cachePath cwd r.Path)) = some fs1)
    (hcreate : os.Create w fs1 (cachePath cwd r.Path) = some fs2) :
    (handler w r).rw.code = 200 ∧ (handler w r).rw.body = B ∧
    (handler w r).fs (cachePath cwd r.Path) = some (Node.file B) ∧
    (handler w r).panicked = false := by
  rw [handler_fetch w r cwd _ fs1 fs2 hempty hloop hpath hcwd hmiss
    (Get_of_unfollowed w _ _ horigin (Or.inl rfl)) rfl hmkdir hcreate]
  exact ⟨(ioCopy_ok B).2, (ioCopy_ok B).1, (open_after_create_write w fs1 fs2 _ B hcreate).1,
    rfl⟩

/-- On the empty disk of `exampleWorld` the chunk is fetched, relayed and stored. -/
theorem write_through_on_miss_witness :
    (handler exampleWorld chunkRequest).rw.code = 200 ∧
    (handler exampleWorld chunkRequest).rw.body = "abc".toList ∧
    (handler exampleWorld chunkRequest).fs (cachePath "/srv".toList chunkRequest.Path)
      = some (Node.file "abc".toList) ∧
    (handler exampleWorld chunkRequest).panicked = false :=
  write_through_on_miss exampleWorld chunkRequest "/srv".toList "abc".toList
    LocationHeader.absent exampleDirs exampleCreated (by decide) (by decide) (by decide) rfl
    (by decide) rfl rfl rfl

/-- C5 as stated fails: the origin answers the chunk request with status 302
and a `Location`; `http.Get` follows the redirect to a response with status
200, so the client receives status 200 with the body `abc`, not status 302
with an empty body, and the body is stored at the cache path. -/
theorem redirect_is_followed :
    os.Open redirectWorld.fs (cachePath "/srv".toList chunkRequest.Path) = none ∧
    redirectWorld.origin ("http://".toList ++ chunkRequest.Host ++ chunkRequest.Path)
      = some { StatusCode := 302,
               Location := LocationHeader.target "http://mirror.example/ab".toList,
               Body := [] } ∧
    (handler redirectWorld chunkRequest).rw.code = 200 ∧
    (handler redirectWorld chunkRequest).rw.body = "abc".toList ∧
    (handler redirectWorld chunkRequest).fs (cachePath "/srv".toList chunkRequest.Path)
      = some (Node.file "abc".toList) ∧
    ¬ ((handler redirectWorld chunkRequest).rw.code = 302 ∧
       (handler redirectWorld chunkRequest).rw.body = [] ∧
       (handler redirectWorld chunkRequest).fs = redirectWorld.fs) := by
  refine ⟨by decide, by decide, by decide, by decide, by decide, ?_⟩
  intro h
  exact absurd h.1 (by decide)

/-- An origin status below 100 is no status for `WriteHeader`: the handler
panics and the client receives nothing. -/
theorem low_status_panics :
    (handler lowStatusWorld chunkRequest).panicked = true ∧
    (handler lowStatusWorld chunkRequest).received = none := by
  decide

/-- The handler on a miss when `http.Get` returns a response whose status is
not 200 and is one that `WriteHeader` takes as the status of the response:
the status is relayed without body and nothing is stored. -/
theorem relay_of_final_response (w : World) (r : Request) (cwd : Str) (resp : Response)
    (hempty : r.Host ≠ []) (hloop : r.Host ≠ "127.0.0.1".toList)
    (hpath : r.Path ≠ "/favicon.ico".toList) (hcwd : w.cwd = some cwd)
    (hmiss : os.Open w.fs (cachePath cwd r.Path) = none)
    (hget : http.Get w ("http://".toList ++ r.Host ++ r.Path) = some resp)
    (hs : resp.StatusCode ≠ 200)
    (hfinal : resp.StatusCode = 101 ∨ (200 ≤ resp.StatusCode ∧ resp.StatusCode ≤ 999)) :
    handler w r =
      { rw := { status := some resp.StatusCode, interim := [], body := [] }, fs := w.fs,
        trace := [Event.getwd, Event.openFile (cachePath cwd r.Path),
          Event.httpGet ("http://".toList ++ r.Host ++ r.Path)],
        panicked := false } := by
  rw [handler_accepted w r cwd hempty hloop hpath hcwd]
  simp only [hmiss, hget, WriteHeader_final _ hfinal, ne_eq, hs, not_false_eq_true, if_true]

/-- C5 (amended): for a request that passes the host and favicon checks and
whose translated cache path cannot be opened, if the origin answers with a
status `s` other than 200 that net/http takes as the status of a response
(101, or 200 to 999) and the answer is no redirect that `http.Get` follows
(`s` is none of 301, 302, 303, 307, 308, or there is no `Location`), the
client receives status `s` with an empty body, the disk is unchanged and the
handler performs no mkdir, create or write. -/
theorem non_200_origin_response (w : World) (r : Request) (cwd : Str) (resp : Response)
    (hempty : r.Host ≠ []) (hloop : r.Host ≠ "127.0.0.1".toList)
    (hpath : r.Path ≠ "/favicon.ico".toList) (hcwd : w.cwd = some cwd)
    (hmiss : os.Open w.fs (cachePath cwd r.Path) = none)
    (horigin : w.origin ("http://".toList ++ r.Host ++ r.Path) = some resp)
    (hs : resp.StatusCode ≠ 200)
    (hfinal : resp.StatusCode = 101 ∨ (200 ≤ resp.StatusCode ∧ resp.StatusCode ≤ 999))
    (hstay : http.shouldRedirect resp.StatusCode = false ∨
      resp.Location = LocationHeader.absent) :
    (handler w r).received = some (resp.StatusCode, []) ∧
    (handler w r).rw.code = resp.StatusCode ∧ (handler w r).rw.body = [] ∧
    (handler w r).fs = w.fs ∧ (∀ e ∈ (handler w r).trace, e.isMutation = false) ∧
    (handler w r).panicked = false := by
  rw [relay_of_final_response w r cwd resp hempty hloop hpath hcwd hmiss
    (Get_of_unfollowed w _ resp horigin hstay) hs hfinal]
  refine ⟨rfl, rfl, rfl, rfl, ?_, rfl⟩
  intro e he
  simp only [List.mem_cons, List.mem_singleton, List.not_mem_nil, or_false] at he
  rcases he with rfl | rfl | rfl <;> rfl

/-- A 404 of the origin is relayed without body and nothing is stored. -/
theorem non_200_origin_response_witness :
    (handler notFoundWorld chunkRequest).received = some (404, []) ∧
    (handler notFoundWorld chunkRequest).rw.code = 404 ∧
    (handler notFoundWorld chunkRequest).rw.body = [] ∧
    (handler notFoundWorld chunkRequest).fs = notFoundWorld.fs ∧
    (∀ e ∈ (handler notFoundWorld chunkRequest).trace, e.isMutation = false) ∧
    (handler notFoundWorld chunkRequest).panicked = false :=
  non_200_origin_response notFoundWorld chunkRequest "/srv".toList
    { StatusCode := 404, Location := LocationHeader.absent, Body := "gone".toList }
    (by decide) (by decide) (by decide) rfl (by decide) rfl (by decide) (by decide)
    (by decide)

/-- C6 (idempotence of a successful fetch): after a request that missed the
cache and was answered by the origin with status 200 and body `B`, with
directory creation and file creation succeeding, handling the same request
again on the resulting disk is a cache hit: it opens the cache path, answers
status 200 with body `B`, makes no origin request and does not panic. -/
theorem fetch_then_hit (w : World) (r : Request) (cwd B : Str) (loc : LocationHeader)
    (fs1 fs2 : FS)
    (hempty : r.Host ≠ []) (hloop : r.Host ≠ "127.0.0.1".toList)
    (hpath : r.Path ≠ "/favicon.ico".toList) (hcwd : w.cwd = some cwd)
    (hmiss : os.Open w.fs (cachePath cwd r.Path) = none)
    (horigin : w.origin ("http://".toList ++ r.Host ++ r.Path)
      = some { StatusCode := 200, Location := loc, Body := B })
    (hmkdir : os.MkdirAll w w.fs (filepath.Dir (cachePath cwd r.Path)) = some fs1)
    (hcreate : os.Create w fs1 (cachePath cwd r.Path) = some fs2) :
    (handler { w with fs := (handler w r).fs } r).rw.body = B ∧
    (handler { w with fs := (handler w r).fs } r).rw.code = 200 ∧
    (handler { w with fs := (handler w r).fs } r).trace
      = [Event.getwd, Event.openFile (cachePath cwd r.Path)] ∧
    (∀ e ∈ (handler { w with fs := (handler w r).fs } r).trace, e.isOrigin = false) ∧
    (handler { w with fs := (handler w r).fs } r).panicked = false := by
  have hfs : (handler w r).fs = os.writeFile fs2 (cachePath cwd r.Path) B := by
    rw [handler_fetch w r cwd _ fs1 fs2 hempty hloop hpath hcwd hmiss
      (Get_of_unfollowed w _ _ horigin (Or.inl rfl)) rfl hmkdir hcreate]
  have hopen : os.Open ({ w with fs := (handler w r).fs } : World).fs (cachePath cwd r.Path)
      = some B := by
    simp only [hfs]
    exact (open_after_create_write w fs1 fs2 _ B hcreate).2
  rw [handler_accepted { w with fs := (handler w r).fs } r cwd hempty hloop hpath hcwd]
  simp only [hopen]
  refine ⟨(ioCopy_fresh B).1, (ioCopy_fresh B).2, ?_, ?_, ?_⟩
  · trivial
  · intro e he
    simp only [List.mem_cons, List.mem_singleton, List.not_mem_nil, or_false] at he
    rcases he with rfl | rfl <;> rfl
  · trivial

/-- After the chunk has been fetched on the empty disk of `exampleWorld`, the same
request is a cache hit. -/
theorem fetch_then_hit_witness :
    (handler { exampleWorld with fs := (handler exampleWorld chunkRequest).fs } chunkRequest).rw.body
      = "abc".toList ∧
    (handler { exampleWorld with fs := (handler exampleWorld chunkRequest).fs } chunkRequest).rw.code
      = 200 ∧
    (handler { exampleWorld with fs := (handler exampleWorld chunkRequest).fs } chunkRequest).trace
      = [Event.getwd, Event.openFile (cachePath "/srv".toList chunkRequest.Path)] ∧
    (∀ e ∈ (handler { exampleWorld with fs := (handler exampleWorld chunkRequest).fs }
        chunkRequest).trace, e.isOrigin = false) ∧
    (handler { exampleWorld with fs := (handler exampleWorld chunkRequest).fs }
      chunkRequest).panicked = false :=
  fetch_then_hit exampleWorld chunkRequest "/srv".toList "abc".toList LocationHeader.absent
    exampleDirs exampleCreated (by decide) (by decide) (by decide) rfl (by decide) rfl rfl rfl

end Steamlancache
